import Mathlib

/-!
Verification of the streaming transport and resilience layer of the
`artificial-rs` OpenAI client.

The development shallowly embeds, from the Rust sources:

* `RetryPolicy::backoff_for` and the retrying request executor
  `post_json_with_retry` (crates/artificial-openai/src/client.rs),
  with durations in nanoseconds as `Nat` and the transport modelled as a
  scripted list of per-attempt outcomes;
* the SSE frame decoder inside `chat_completion_stream`
  (client.rs), over byte lists, with frames split at the `"\n\n"`
  delimiter exactly as the `windows(2)`/`drain` loop does;
* the tool-call reconstruction state machine of
  `chat_complete_events_stream`
  (crates/artificial-openai/src/provider_impl_chat_stream.rs).
  The two `std::collections::HashMap`s are modelled as insertion-ordered
  association lists; since Rust's `HashMap` iteration order is
  unspecified, the finalization loop `for (index, buf) in tool_args.iter()`
  is parametrised by an iteration-order oracle `iter` constrained only to
  produce a permutation of the map's entries.  JSON parsing
  (`serde_json::from_str`) is an external collaborator and is passed in as
  an abstract total function `parse : String -> Option Json`.
-/

/-! ### Durations and the retry policy (client.rs:98-127) -/

/-- Largest value of Rust `std::time::Duration`, in nanoseconds:
`u64::MAX` seconds plus `999_999_999` nanoseconds. -/
def NANOS_MAX : Nat := (2 ^ 64 - 1) * 1000000000 + 999999999

/-- Rust `Duration::saturating_mul` on the nanosecond model. -/
def durSatMul (d k : Nat) : Nat := min (d * k) NANOS_MAX

/-- `RetryPolicy` (client.rs:98-104).  Durations in nanoseconds. -/
structure RetryPolicy where
  max_retries : Nat
  base_delay : Nat
  max_delay : Nat
  respect_retry_after : Bool

/-- The `Default` instance of `RetryPolicy` (client.rs:106-115):
3 retries, 500 ms base, 30 s cap, respect `Retry-After`. -/
def defaultRetryPolicy : RetryPolicy :=
  { max_retries := 3
    base_delay := 500000000
    max_delay := 30000000000
    respect_retry_after := true }

/-- `RetryPolicy::backoff_for` (client.rs:118-126):
`base_delay.saturating_mul(1 << attempt.min(10))`, capped at `max_delay`. -/
def RetryPolicy.backoff_for (p : RetryPolicy) (attempt : Nat) : Nat :=
  let pow := min attempt 10
  let backoff := durSatMul p.base_delay (2 ^ pow)
  if p.max_delay < backoff then p.max_delay else backoff

/-! ### Header parsing (client.rs:16-38) -/

/-- Rust `char::is_whitespace` (the Unicode `White_Space` property). -/
def rustIsWhitespace (c : Char) : Bool :=
  let n := c.toNat
  n == 9 || n == 10 || n == 11 || n == 12 || n == 13 || n == 32 ||
  n == 0x85 || n == 0xA0 || n == 0x1680 ||
  (0x2000 ≤ n && n ≤ 0x200A) ||
  n == 0x2028 || n == 0x2029 || n == 0x202F || n == 0x205F || n == 0x3000

/-- Rust `str::trim` on a character list. -/
def trimChars (cs : List Char) : List Char :=
  ((cs.dropWhile rustIsWhitespace).reverse.dropWhile rustIsWhitespace).reverse

/-- Rust `str::trim`. -/
def rustTrim (s : String) : String := String.mk (trimChars s.data)

/-- Rust `str::parse::<u64>`: optional leading `+`, one or more ASCII
digits, value below `2^64`. -/
def rustParseU64 (s : String) : Option Nat :=
  let cs := match s.data with
    | '+' :: t => t
    | u => u
  if cs ≠ [] && cs.all Char.isDigit then
    let n := cs.foldl (fun a c => a * 10 + (c.toNat - 48)) 0
    if n < 2 ^ 64 then some n else none
  else none

/-- `HeaderMap::get` modelled over a list of (lowercased) name/value
pairs: the first pair with the requested name. -/
def headerGet : List (String × String) → String → Option String
  | [], _ => none
  | (k, v) :: t, n => if k = n then some v else headerGet t n

/-- `parse_retry_after_seconds` (client.rs:16-24): read the
`retry-after` header, trim, parse as whole seconds; absent or malformed
yields a zero duration.  Result in nanoseconds. -/
def parse_retry_after_seconds (hs : List (String × String)) : Nat :=
  match headerGet hs "retry-after" with
  | some v =>
    match rustParseU64 (rustTrim v) with
    | some secs => secs * 1000000000
    | none => 0
  | none => 0

/-! ### The retrying request executor (client.rs:179-285)

One logical request is modelled against a scripted transport: the i-th
element of the list is what the i-th `send()` produces.  The result pairs
the list of slept delays (in order) with the terminal outcome; `none`
means the script ran out of responses before the loop terminated. -/

/-- Outcome of one `send()`: a transport error with its Rust
classification flags, or an HTTP response. -/
inductive HttpTry where
  | fail (timeout connect isStatus : Bool)
  | resp (status : Nat) (headers : List (String × String)) (body : String)

/-- Terminal result of `post_json_with_retry`: the success response, or
one of the error variants of `OpenAiError` produced there. -/
inductive ExecResult where
  | ok (status : Nat) (headers : List (String × String)) (body : String)
  | rateLimited (status : Nat) (body : String)
  | api (status : Nat) (body : String)
  | http (timeout connect isStatus : Bool)

/-- `post_json_with_retry` (client.rs:179-285).  Returns the slept
delays in order together with the terminal result. -/
def post_json_with_retry (p : RetryPolicy) :
    Nat → List HttpTry → List Nat × Option ExecResult
  | _, [] => ([], none)
  | attempt, .resp status headers body :: rest =>
    if 200 ≤ status && status ≤ 299 then
      ([], some (.ok status headers body))
    else if (status == 429 || (500 ≤ status && status ≤ 599)) &&
        attempt < p.max_retries then
      let delay0 := p.backoff_for attempt
      let delay :=
        if p.respect_retry_after then
          let hd := parse_retry_after_seconds headers
          if delay0 < hd then hd else delay0
        else delay0
      let r := post_json_with_retry p (attempt + 1) rest
      (delay :: r.1, r.2)
    else if status == 429 then ([], some (.rateLimited status body))
    else ([], some (.api status body))
  | attempt, .fail t c s :: rest =>
    if attempt < p.max_retries && (t || c || !s) then
      let delay := p.backoff_for attempt
      let r := post_json_with_retry p (attempt + 1) rest
      (delay :: r.1, r.2)
    else ([], some (.http t c s))

/-! ### SSE frame decoder (client.rs:330-353)

Bytes are `Nat`s below 256.  The byte-buffer loop
`while let Some(pos) = buf.windows(2).position(|w| w == b"\n\n")`
followed by `buf.drain(..pos + 2)` is modelled by `findDelim` and
`splitFrames`; feeding the chunk list is `decodeChunks`. -/

/-- Position of the first `"\n\n"` window, as
`buf.windows(2).position(|w| w == b"\n\n")`. -/
def findDelim : List Nat → Option Nat
  | a :: b :: t =>
    if a == 10 && b == 10 then some 0
    else (findDelim (b :: t)).map (· + 1)
  | _ => none

/-- Fuel-indexed frame splitter: repeatedly drain everything up to and
including the first `"\n\n"` as one frame; return the frames in order
and the residual buffer.  `fuel` bounds the number of frames; each frame
consumes at least two bytes, so `b.length` fuel always suffices. -/
def splitFramesF : Nat → List Nat → List (List Nat) × List Nat
  | 0, b => ([], b)
  | fuel + 1, b =>
    match findDelim b with
    | none => ([], b)
    | some p =>
      let r := splitFramesF fuel (b.drop (p + 2))
      (b.take (p + 2) :: r.1, r.2)

/-- Frames (and residual buffer) of one byte buffer. -/
def splitFrames (b : List Nat) : List (List Nat) × List Nat :=
  splitFramesF b.length b

/-- The incremental loop: append each incoming chunk to the buffer, then
drain every complete frame.  Trailing undelimited bytes are discarded
when the chunk stream ends. -/
def decodeChunks : List Nat → List (List Nat) → List (List Nat)
  | _, [] => []
  | buf, c :: cs =>
    (splitFrames (buf ++ c)).1 ++ decodeChunks (splitFrames (buf ++ c)).2 cs

/-! #### UTF-8 decoding (`std::str::from_utf8`) -/

/-- UTF-8 continuation byte: `0x80..=0xBF`. -/
def contOk (b : Nat) : Bool := 0x80 ≤ b && b ≤ 0xBF

/-- Fuel-indexed UTF-8 decoder following RFC 3629 exactly as
`std::str::from_utf8` validates: rejects overlong forms, surrogates and
code points beyond `0x10FFFF`. -/
def utf8DecodeF : Nat → List Nat → Option (List Char)
  | _, [] => some []
  | 0, _ :: _ => none
  | fuel + 1, b :: t =>
    if b < 0x80 then
      (utf8DecodeF fuel t).map (fun cs => Char.ofNat b :: cs)
    else if 0xC2 ≤ b && b ≤ 0xDF then
      match t with
      | c1 :: t2 =>
        if contOk c1 then
          (utf8DecodeF fuel t2).map
            (fun cs => Char.ofNat ((b - 0xC0) * 64 + (c1 - 0x80)) :: cs)
        else none
      | _ => none
    else if 0xE0 ≤ b && b ≤ 0xEF then
      match t with
      | c1 :: c2 :: t2 =>
        let lo := if b == 0xE0 then 0xA0 else 0x80
        let hi := if b == 0xED then 0x9F else 0xBF
        if lo ≤ c1 && c1 ≤ hi && contOk c2 then
          (utf8DecodeF fuel t2).map
            (fun cs =>
              Char.ofNat ((b - 0xE0) * 4096 + (c1 - 0x80) * 64 + (c2 - 0x80)) :: cs)
        else none
      | _ => none
    else if 0xF0 ≤ b && b ≤ 0xF4 then
      match t with
      | c1 :: c2 :: c3 :: t2 =>
        let lo := if b == 0xF0 then 0x90 else 0x80
        let hi := if b == 0xF4 then 0x8F else 0xBF
        if lo ≤ c1 && c1 ≤ hi && contOk c2 && contOk c3 then
          (utf8DecodeF fuel t2).map
            (fun cs =>
              Char.ofNat ((b - 0xF0) * 262144 + (c1 - 0x80) * 4096 +
                (c2 - 0x80) * 64 + (c3 - 0x80)) :: cs)
        else none
      | _ => none
    else none

/-- `std::str::from_utf8` on a byte list. -/
def utf8Decode (bs : List Nat) : Option (List Char) :=
  utf8DecodeF bs.length bs

/-- `frame_str.strip_prefix("data: ")` (client.rs:344). -/
def dropDataTag (cs : List Char) : Option (List Char) :=
  if cs.take 6 = "data: ".data then some (cs.drop 6) else none

/-- How the decoded frame sequence ends. -/
inductive SseEnd where
  | inputEnded
  | doneMark
  | badUtf8
deriving DecidableEq

/-- Payload extraction over the decoded frames (client.rs:340-351):
invalid UTF-8 is a fatal error; frames without a `"data: "` tag are
skipped; the trimmed payload `"[DONE]"` ends the stream. -/
def ssePayloads : List (List Nat) → List (List Char) × SseEnd
  | [] => ([], .inputEnded)
  | f :: fs =>
    match utf8Decode f with
    | none => ([], .badUtf8)
    | some cs =>
      match dropDataTag cs with
      | none => ssePayloads fs
      | some rest =>
        let p := trimChars rest
        if p = "[DONE]".data then ([], .doneMark)
        else (p :: (ssePayloads fs).1, (ssePayloads fs).2)

/-- The full frame-decoder pipeline of `chat_completion_stream`:
byte chunks in, ordered `"data: "` payloads (and the way the frame
sequence ended) out. -/
def sseRun (chunks : List (List Nat)) : List (List Char) × SseEnd :=
  ssePayloads (decodeChunks [] chunks)

/-! ### Chunk DTOs (api_v1/chat_completion_stream.rs) and events
(artificial-core/src/generic.rs:152-180) -/

/-- A minimal JSON value shape standing for `serde_json::Value`.  The
interpreter never inspects parsed values, so the exact shape is
irrelevant; parsing itself is an abstract parameter. -/
inductive Json where
  | null
  | bool (b : Bool)
  | num (n : Int)
  | str (s : String)
  | arr (xs : List Json)
  | obj (fields : List (String × Json))

/-- `GenericFunctionCall` (generic.rs:130-133). -/
structure GenericFunctionCall where
  name : String
  arguments : Json

/-- `GenericFunctionCallIntent` (generic.rs:124-127). -/
structure GenericFunctionCallIntent where
  id : String
  function : GenericFunctionCall

/-- `StreamEvent` (generic.rs:152-180). -/
inductive StreamEvent where
  | textDelta (text : String)
  | toolCallStart (index : Nat) (id : Option String) (name : Option String)
  | toolCallArgumentsDelta (index : Nat) (argumentsFragment : String)
  | toolCallComplete (index : Nat) (intent : GenericFunctionCallIntent)
  | messageEnd
  | usage (promptTokens completionTokens totalTokens : Int)

/-- `FinishReason` (api_v1/chat_completion.rs:270-275). -/
inductive FinishReason where
  | stop
  | length
  | contentFilter
  | toolCalls
deriving DecidableEq

/-- `ToolCallFunctionDelta`: optional name and argument fragment. -/
structure ToolCallFunctionDelta where
  name : Option String
  arguments : Option String
deriving DecidableEq

/-- `ToolCallDelta`: one indexed tool-call fragment.  The unused
`type` field is omitted. -/
structure ToolCallDelta where
  index : Nat
  id : Option String
  function : Option ToolCallFunctionDelta
deriving DecidableEq

/-- `ChatCompletionMessageDelta`, restricted to the fields the
interpreter reads (`role` is never read). -/
structure MessageDelta where
  content : Option String
  tool_calls : Option (List ToolCallDelta)
deriving DecidableEq

/-- `ChatCompletionChunkChoice`.  `index` is an `i64` in the source;
only its comparison with `0` is ever used. -/
structure ChunkChoice where
  index : Int
  delta : MessageDelta
  finish_reason : Option FinishReason
deriving DecidableEq

/-- `ChatCompletionChunkResponse`, restricted to `choices` (the other
fields are never read by the interpreter). -/
structure Chunk where
  choices : List ChunkChoice
deriving DecidableEq

/-- One item of the upstream chunk stream as seen by the interpreter:
a decoded chunk, or an error item (`Err` from the inner stream, which
`chunk.map_err(...)?` re-raises). -/
inductive ChunkItem where
  | ok (c : Chunk)
  | fail

/-! ### Tool-call reconstruction state machine
(provider_impl_chat_stream.rs:62-167)

`tool_args : HashMap<usize, String>` and
`tool_seen : HashMap<usize, (Option<String>, Option<String>)>` are
modelled as association lists in key-insertion order (`aset` appends
fresh keys at the tail, exactly when `entry(..).or_insert(..)` /
`or_default()` inserts).  Lookups are key-based, so the list order is
unobservable except in the finalization loop, whose `HashMap` iteration
order is modelled by the oracle `iter`. -/

/-- First value bound to the key, as `HashMap::get`. -/
def alookup {α : Type} : List (Nat × α) → Nat → Option α
  | [], _ => none
  | (k, v) :: t, i => if k = i then some v else alookup t i

/-- Update the key in place, or append a fresh key at the tail. -/
def aset {α : Type} : List (Nat × α) → Nat → α → List (Nat × α)
  | [], i, v => [(i, v)]
  | (k, w) :: t, i, v =>
    if k = i then (i, v) :: t else (k, w) :: aset t i v

/-- The interpreter's mutable state: the two hash maps. -/
structure TCState where
  toolArgs : List (Nat × String)
  toolSeen : List (Nat × (Option String × Option String))

/-- The state at the top of `chat_complete_events_stream`. -/
def initTCState : TCState := { toolArgs := [], toolSeen := [] }

/-- The `tc.id` branch (provider_impl_chat_stream.rs:92-103): a fresh
identifier emits `ToolCallStart` with the name seen so far; a repeated
identifier only overwrites the stored value. -/
def stepId (i : Nat) (idOpt : Option String)
    (seen : List (Nat × (Option String × Option String))) :
    List (Nat × (Option String × Option String)) × List StreamEvent :=
  match idOpt with
  | none => (seen, [])
  | some id =>
    let e := (alookup seen i).getD (none, none)
    match e.1 with
    | none =>
      (aset seen i (some id, e.2), [.toolCallStart i (some id) e.2])
    | some _ => (aset seen i (some id, e.2), [])

/-- The `func.name` branch (provider_impl_chat_stream.rs:106-117): a
fresh name emits `ToolCallStart` with the identifier seen so far; a
repeated name only overwrites the stored value. -/
def stepName (i : Nat) (nameOpt : Option String)
    (seen : List (Nat × (Option String × Option String))) :
    List (Nat × (Option String × Option String)) × List StreamEvent :=
  match nameOpt with
  | none => (seen, [])
  | some nm =>
    let e := (alookup seen i).getD (none, none)
    match e.2 with
    | none =>
      (aset seen i (e.1, some nm), [.toolCallStart i e.1 (some nm)])
    | some _ => (aset seen i (e.1, some nm), [])

/-- The `func.arguments` branch (provider_impl_chat_stream.rs:119-128):
append the fragment to the index's buffer (creating it when absent, as
`tool_args.entry(..).or_default()`), and emit `ToolCallArgumentsDelta`
exactly when the fragment is non-empty. -/
def stepArgs (i : Nat) (argsOpt : Option String)
    (ta : List (Nat × String)) : List (Nat × String) × List StreamEvent :=
  match argsOpt with
  | none => (ta, [])
  | some args =>
    let buf := (alookup ta i).getD ""
    (aset ta i (buf ++ args),
      if args = "" then [] else [.toolCallArgumentsDelta i args])

/-- `tool_seen.entry(tc.index).or_insert((None, None))`
(provider_impl_chat_stream.rs:90). -/
def orInsertSeen (seen : List (Nat × (Option String × Option String)))
    (i : Nat) : List (Nat × (Option String × Option String)) :=
  match alookup seen i with
  | some _ => seen
  | none => aset seen i (none, none)

/-- Process one `ToolCallDelta` (provider_impl_chat_stream.rs:89-130):
create the `tool_seen` entry, run the id branch, then the function
branches (name, then arguments). -/
def processFragment (s : TCState) (tc : ToolCallDelta) :
    TCState × List StreamEvent :=
  let seen0 := orInsertSeen s.toolSeen tc.index
  let r1 := stepId tc.index tc.id seen0
  match tc.function with
  | none => ({ toolArgs := s.toolArgs, toolSeen := r1.1 }, r1.2)
  | some f =>
    let r2 := stepName tc.index f.name r1.1
    let r3 := stepArgs tc.index f.arguments s.toolArgs
    ({ toolArgs := r3.1, toolSeen := r2.1 }, r1.2 ++ r2.2 ++ r3.2)

/-- Process a list of tool-call fragments in order. -/
def processFragments (s : TCState) :
    List ToolCallDelta → TCState × List StreamEvent
  | [] => (s, [])
  | tc :: tcs =>
    let r1 := processFragment s tc
    let r2 := processFragments r1.1 tcs
    (r2.1, r1.2 ++ r2.2)

/-- How the event stream of one exchange ends:
`done` — the generator returned after `MessageEnd`;
`truncated` — the chunk stream ended with no finish reason (the
`while` loop fell through and the generator ended silently);
`errored` — an `Err` was yielded and the stream ended. -/
inductive Outcome where
  | done
  | truncated
  | errored
deriving DecidableEq

/-- The finalization loop for `FinishReason::ToolCalls`
(provider_impl_chat_stream.rs:136-157), already applied to the
iteration order chosen for `tool_args`: for each entry, default the
name to `"tool"`, parse the buffered arguments (a parse failure is a
fatal, surfaced error), default the id to `"toolcall-{index}"`, and
emit `ToolCallComplete`; after all entries, `MessageEnd`. -/
def completeLoop (parse : String → Option Json) :
    List (Nat × String) → List (Nat × (Option String × Option String)) →
    List StreamEvent × Outcome
  | [], _ => ([.messageEnd], .done)
  | (i, buf) :: rest, seen =>
    let e := (alookup seen i).getD (none, none)
    let nm := e.2.getD "tool"
    match parse buf with
    | none => ([], .errored)
    | some v =>
      let intent : GenericFunctionCallIntent :=
        { id := e.1.getD ("toolcall-" ++ toString i)
          function := { name := nm, arguments := v } }
      let r := completeLoop parse rest seen
      (.toolCallComplete i intent :: r.1, r.2)

/-- Handle a `finish_reason` (provider_impl_chat_stream.rs:134-164). -/
def finishEvents (parse : String → Option Json)
    (iter : List (Nat × String) → List (Nat × String))
    (s : TCState) : FinishReason → List StreamEvent × Outcome
  | .toolCalls => completeLoop parse (iter s.toolArgs) s.toolSeen
  | .stop => ([.messageEnd], .done)
  | .length => ([.messageEnd], .done)
  | .contentFilter => ([.messageEnd], .done)

/-- Continue with an updated state, or stop the whole stream. -/
inductive StepRes where
  | cont (s : TCState)
  | stop (o : Outcome)

/-- The text-delta branch (provider_impl_chat_stream.rs:82-85): emit
`TextDelta` when the content fragment is present and non-empty. -/
def textEvents : Option String → List StreamEvent
  | some t => if t = "" then [] else [StreamEvent.textDelta t]
  | none => []

/-- The tool-call branch (provider_impl_chat_stream.rs:88-131): process
each fragment in order when the list is present. -/
def toolEvents (s : TCState) :
    Option (List ToolCallDelta) → TCState × List StreamEvent
  | none => (s, [])
  | some tcs => processFragments s tcs

/-- Process the choices of one chunk in order
(provider_impl_chat_stream.rs:77-165): skip choices beyond index 0;
emit the text delta when non-empty; process the tool-call fragments;
then handle the finish reason, which ends the whole stream. -/
def processChoices (parse : String → Option Json)
    (iter : List (Nat × String) → List (Nat × String)) :
    TCState → List ChunkChoice → List StreamEvent × StepRes
  | s, [] => ([], .cont s)
  | s, c :: cs =>
    if c.index ≠ 0 then processChoices parse iter s cs
    else
      let evsText := textEvents c.delta.content
      let pf := toolEvents s c.delta.tool_calls
      match c.finish_reason with
      | none =>
        let r := processChoices parse iter pf.1 cs
        (evsText ++ pf.2 ++ r.1, r.2)
      | some reason =>
        let rf := finishEvents parse iter pf.1 reason
        (evsText ++ pf.2 ++ rf.1, .stop rf.2)

/-- The interpreter loop over the chunk stream
(provider_impl_chat_stream.rs:74-166): an upstream error item ends the
stream with that error; when the chunk stream ends with no finish
reason the generator simply ends (`truncated`). -/
def runChunks (parse : String → Option Json)
    (iter : List (Nat × String) → List (Nat × String)) :
    TCState → List ChunkItem → List StreamEvent × Outcome
  | _, .fail :: _ => ([], .errored)
  | s, .ok c :: rest =>
    let pc := processChoices parse iter s c.choices
    match pc.2 with
    | .cont s1 =>
      ((pc.1 ++ (runChunks parse iter s1 rest).1),
        (runChunks parse iter s1 rest).2)
    | .stop o => (pc.1, o)
  | _, [] => ([], .truncated)

/-- `chat_complete_events_stream` seen from the chunk level: run the
interpreter from the empty state. -/
def chat_complete_events_stream (parse : String → Option Json)
    (iter : List (Nat × String) → List (Nat × String))
    (items : List ChunkItem) : List StreamEvent × Outcome :=
  runChunks parse iter initTCState items

/-- Lift the frame-decoder output to the chunk-item stream: each
payload is deserialized by the external `serde` collaborator
`cparse`; a deserialization failure or invalid UTF-8 yields an error
item that ends the stream. -/
def chunkItems (cparse : String → Option Chunk) :
    List (List Char) → SseEnd → List ChunkItem
  | [], e => if e = .badUtf8 then [.fail] else []
  | p :: ps, e =>
    match cparse (String.mk p) with
    | none => [.fail]
    | some c => .ok c :: chunkItems cparse ps e

/-- The full streamed exchange, from the response byte chunks to the
public event sequence. -/
def fullStream (parse : String → Option Json)
    (iter : List (Nat × String) → List (Nat × String))
    (cparse : String → Option Chunk)
    (chunks : List (List Nat)) : List StreamEvent × Outcome :=
  chat_complete_events_stream parse iter
    (chunkItems cparse (sseRun chunks).1 (sseRun chunks).2)

/-! ### Observers on event lists, fragments, and states

These are measurement devices used to state the verified properties;
they embed nothing from the source. -/

/-- Is this a `ToolCallStart` for index `i`? -/
def isStartB (i : Nat) : StreamEvent → Bool
  | .toolCallStart j _ _ => j == i
  | _ => false

/-- Is this a `ToolCallArgumentsDelta` for index `i`? -/
def isDeltaB (i : Nat) : StreamEvent → Bool
  | .toolCallArgumentsDelta j _ => j == i
  | _ => false

/-- Is this `MessageEnd`? -/
def isEndB : StreamEvent → Bool
  | .messageEnd => true
  | _ => false

/-- Number of `ToolCallStart` events for index `i`. -/
def countStarts (i : Nat) (evs : List StreamEvent) : Nat :=
  (evs.filter (isStartB i)).length

/-- Indices of the `ToolCallComplete` events, in emission order. -/
def completesIdx : List StreamEvent → List Nat
  | [] => []
  | .toolCallComplete i _ :: rest => i :: completesIdx rest
  | _ :: rest => completesIdx rest

/-- Concatenation of all `ToolCallArgumentsDelta` fragments for index
`i`, in emission order. -/
def deltasFor (i : Nat) : List StreamEvent → String
  | [] => ""
  | .toolCallArgumentsDelta j f :: rest =>
    (if j == i then f else "") ++ deltasFor i rest
  | _ :: rest => deltasFor i rest

/-- State of the ordering monitor: indices with an emitted
`ToolCallStart`, and indices with an emitted `ToolCallComplete`. -/
def chkStep : List Nat × List Nat → StreamEvent → List Nat × List Nat
  | (st, cp), .toolCallStart i _ _ => (i :: st, cp)
  | (st, cp), .toolCallComplete i _ => (st, i :: cp)
  | p, _ => p

/-- Per-event ordering condition: an arguments delta for `i` needs a
previous start for `i` and no previous complete for `i`. -/
def chkOk : List Nat × List Nat → StreamEvent → Bool
  | (st, cp), .toolCallArgumentsDelta i _ => st.contains i && !(cp.contains i)
  | _, _ => true

/-- The ordering monitor for the C3 invariant: every arguments delta is
preceded by a start for its index and not preceded by its complete, and
`MessageEnd`, when it occurs, is the final event (hence unique). -/
def chk : List Nat × List Nat → List StreamEvent → Bool
  | _, [] => true
  | _, .messageEnd :: rest => rest.isEmpty
  | p, e :: rest => chkOk p e && chk (chkStep p e) rest

/-- Does the fragment carry an argument text? -/
def fragHasArgs (tc : ToolCallDelta) : Bool :=
  match tc.function with
  | some f => f.arguments.isSome
  | none => false

/-- Does the fragment carry a function name? -/
def fragHasName (tc : ToolCallDelta) : Bool :=
  match tc.function with
  | some f => f.name.isSome
  | none => false

/-- Does the fragment carry an id or a function name? -/
def fragHasIdName (tc : ToolCallDelta) : Bool :=
  tc.id.isSome || fragHasName tc

/-- Tool-call fragments of one choice as the interpreter sees them
(nothing for choices beyond index 0). -/
def choiceFrags (c : ChunkChoice) : List ToolCallDelta :=
  if c.index ≠ 0 then [] else c.delta.tool_calls.getD []

/-- Tool-call fragments of a choice list, in processing order. -/
def choicesFrags : List ChunkChoice → List ToolCallDelta
  | [] => []
  | c :: cs => choiceFrags c ++ choicesFrags cs

/-- Tool-call fragments of the whole input, in processing order. -/
def flatFrags : List ChunkItem → List ToolCallDelta
  | [] => []
  | .ok c :: rest => choicesFrags c.choices ++ flatFrags rest
  | .fail :: rest => flatFrags rest

/-- A choice that does not end the stream: not index 0, or no finish
reason. -/
def choiceClean (c : ChunkChoice) : Bool :=
  !(c.index == 0) || c.finish_reason.isNone

/-- An input item that neither errs nor ends the stream. -/
def itemClean : ChunkItem → Bool
  | .ok c => c.choices.all choiceClean
  | .fail => false

/-- An input whose processing reaches the end of the chunk list. -/
def itemsClean (items : List ChunkItem) : Bool := items.all itemClean

/-- An input item that forces termination when processed: an error
item, or a chunk with a finish reason on a choice of index 0. -/
def itemEnds : ChunkItem → Bool
  | .ok c => c.choices.any (fun c => c.index == 0 && c.finish_reason.isSome)
  | .fail => true

/-- Accumulator step for `wfFrags`: indices that have shown an id or a
name so far. -/
def okStep (ok : List Nat) (tc : ToolCallDelta) : List Nat :=
  if fragHasIdName tc then tc.index :: ok else ok

/-- Well-formed fragment sequences: an argument fragment for an index
arrives no earlier than the first id- or name-carrying fragment for
that index (the same fragment is allowed, since the id and name
branches run before the arguments branch). -/
def wfFrags : List Nat → List ToolCallDelta → Bool
  | _, [] => true
  | ok, tc :: rest =>
    (!(fragHasArgs tc) || ok.contains tc.index || fragHasIdName tc) &&
    wfFrags (okStep ok tc) rest

/-- Does some fragment carry an id for index `i`? -/
def anyIdFrag (i : Nat) (l : List ToolCallDelta) : Bool :=
  l.any fun tc => tc.index == i && tc.id.isSome

/-- Does some fragment carry a function name for index `i`? -/
def anyNameFrag (i : Nat) (l : List ToolCallDelta) : Bool :=
  l.any fun tc => tc.index == i && fragHasName tc

/-- The indices in order of their first argument-carrying fragment:
the insertion order of the `tool_args` map. -/
def firstArgOrder : List Nat → List ToolCallDelta → List Nat
  | acc, [] => acc
  | acc, tc :: rest =>
    firstArgOrder
      (if fragHasArgs tc && !(acc.contains tc.index) then acc ++ [tc.index]
       else acc) rest

/-- Keys of an association list, in order. -/
def akeys {α : Type} (l : List (Nat × α)) : List Nat := l.map fun kv => kv.1

/-- Does the seen-map record an identifier for index `i`? -/
def seenHasId (seen : List (Nat × (Option String × Option String)))
    (i : Nat) : Bool :=
  match alookup seen i with
  | some (some _, _) => true
  | _ => false

/-- Does the seen-map record a function name for index `i`? -/
def seenHasName (seen : List (Nat × (Option String × Option String)))
    (i : Nat) : Bool :=
  match alookup seen i with
  | some (_, some _) => true
  | _ => false

/-- Has an identifier been recorded for index `i`? -/
def hasIdSeen (s : TCState) (i : Nat) : Bool := seenHasId s.toolSeen i

/-- Has a function name been recorded for index `i`? -/
def hasNameSeen (s : TCState) (i : Nat) : Bool := seenHasName s.toolSeen i

/-- The accumulated argument buffer for index `i` (empty if absent). -/
def bufOf (s : TCState) (i : Nat) : String :=
  (alookup s.toolArgs i).getD ""

/-- A streaming-phase event: neither `ToolCallComplete` nor
`MessageEnd`. -/
def isStreamEvt : StreamEvent → Bool
  | .toolCallComplete _ _ => false
  | .messageEnd => false
  | _ => true

/-! ### Concrete fixtures for witnesses and counterexamples -/

/-- A total stand-in argument parser (accepts every buffer). -/
def parseAny : String → Option Json := fun _ => some Json.null

/-- A chunk carrying only tool-call fragments on choice 0. -/
def mkFragChunk (tcs : List ToolCallDelta) : Chunk :=
  { choices := [{ index := 0
                  delta := { content := none, tool_calls := some tcs }
                  finish_reason := none }] }

/-- A chunk carrying only a finish reason on choice 0. -/
def mkFinChunk (r : FinishReason) : Chunk :=
  { choices := [{ index := 0
                  delta := { content := none, tool_calls := none }
                  finish_reason := some r }] }

/-- A fragment: index, optional id, optional name, optional args. -/
def mkFrag (i : Nat) (id nm args : Option String) : ToolCallDelta :=
  { index := i, id := id
    function :=
      match nm, args with
      | none, none => none
      | _, _ => some { name := nm, arguments := args } }

/-- The argument parser of the worked example of spec section 8: the
two fragments concatenate to a small JSON object. -/
def parseEx : String → Option Json :=
  fun s =>
    if s = "\x7b\"x\":1\x7d" then some (Json.obj [("x", Json.num 1)])
    else none

/-- A chunk carrying tool-call fragments and a finish reason in the
same choice. -/
def mkFragFinChunk (tcs : List ToolCallDelta) (r : FinishReason) : Chunk :=
  { choices := [{ index := 0
                  delta := { content := none, tool_calls := some tcs }
                  finish_reason := some r }] }

/-- An argument parser accepting exactly the buffer `"{}"`. -/
def parseObj : String → Option Json :=
  fun s => if s = "\x7b\x7d" then some (Json.obj []) else none

/-- The completed intent of the C8 witness run. -/
def intentC8 : GenericFunctionCallIntent :=
  { id := "a", function := { name := "f", arguments := Json.obj [] } }

/-- Input of the C8 witness: one complete tool call, then the
tool-calls finish. -/
def itemsC8 : List ChunkItem :=
  [ChunkItem.ok (mkFragChunk [mkFrag 0 (some "a") (some "f")
      (some "\x7b\x7d")]),
   ChunkItem.ok (mkFinChunk .toolCalls)]

/-- Input of the C9 witness (the worked example of spec section 8,
before its terminal chunk): id first, then name, then two argument
fragments, all for index 0. -/
def itemsC9 : List ChunkItem :=
  [ChunkItem.ok (mkFragChunk [mkFrag 0 (some "call_1") none none]),
   ChunkItem.ok (mkFragChunk [mkFrag 0 none (some "get_weather") none]),
   ChunkItem.ok (mkFragChunk [mkFrag 0 none none (some "\x7b\"x\":")]),
   ChunkItem.ok (mkFragChunk [mkFrag 0 none none (some "1\x7d")])]

/-- Input of the C10 witness: index 2 shows an id but never an
argument fragment, and the stream finishes with tool-calls. -/
def itemsC10 : List ChunkItem :=
  [ChunkItem.ok (mkFragFinChunk [mkFrag 2 (some "a") none none]
    .toolCalls)]

/-- Input of the C1 counterexample: two tool calls, indices first seen
in the order 0 then 1, finished by tool-calls in the same chunk. -/
def itemsC1 : List ChunkItem :=
  [ChunkItem.ok (mkFragFinChunk
    [mkFrag 0 (some "a") (some "f") (some "1"),
     mkFrag 1 (some "b") (some "g") (some "2")] .toolCalls)]

/-- Input of the C3 counterexample: an argument fragment for index 0
arrives before any id- or name-carrying fragment for index 0. -/
def itemsC3 : List ChunkItem :=
  [ChunkItem.ok (mkFragChunk
    [mkFrag 0 none none (some "\x7b\x7d"),
     mkFrag 0 (some "a") none none])]

/-- Clean prefix used by the C1 witness: the same two tool calls, with
the finish in a separate final chunk. -/
def preC1 : List ChunkItem :=
  [ChunkItem.ok (mkFragChunk
    [mkFrag 0 (some "a") (some "f") (some "1"),
     mkFrag 1 (some "b") (some "g") (some "2")])]

/-- The example byte stream of spec section 8: one data frame carrying
a small JSON object, then the `[DONE]` sentinel. -/
def exBytes : List Nat :=
  ("data: \x7b\"a\":1\x7d\n\ndata: [DONE]\n\n").data.map Char.toNat

/-! ## Theorems -/

/-! ### C4: the backoff policy -/

theorem backoff_for_eq (p : RetryPolicy) (hm : p.max_delay ≤ NANOS_MAX)
    (a : Nat) :
    p.backoff_for a = min (p.base_delay * 2 ^ min a 10) p.max_delay := by
  simp only [RetryPolicy.backoff_for, durSatMul]
  generalize p.base_delay * 2 ^ min a 10 = x
  split <;> omega

/-- C4: for every attempt number `a`, the backoff policy returns exactly
`min (base_delay * 2 ^ min a 10) max_delay`, and the delay is
monotonically non-decreasing in `a`.  (The hypothesis records that
`max_delay` is a representable Rust `Duration`.) -/
theorem backoff_policy_spec (p : RetryPolicy) (hm : p.max_delay ≤ NANOS_MAX)
    (a : Nat) :
    p.backoff_for a = min (p.base_delay * 2 ^ min a 10) p.max_delay ∧
    ∀ b, a ≤ b → p.backoff_for a ≤ p.backoff_for b := by
  refine ⟨backoff_for_eq p hm a, fun b hab => ?_⟩
  rw [backoff_for_eq p hm a, backoff_for_eq p hm b]
  have hx : p.base_delay * 2 ^ min a 10 ≤ p.base_delay * 2 ^ min b 10 :=
    Nat.mul_le_mul_left _ (Nat.pow_le_pow_right (by omega) (by omega))
  omega

theorem backoff_policy_spec_witness :
    defaultRetryPolicy.max_delay ≤ NANOS_MAX ∧
    (defaultRetryPolicy.backoff_for 3 =
        min (defaultRetryPolicy.base_delay * 2 ^ min 3 10)
          defaultRetryPolicy.max_delay ∧
      ∀ b, 3 ≤ b →
        defaultRetryPolicy.backoff_for 3 ≤ defaultRetryPolicy.backoff_for b) :=
  ⟨by decide, backoff_policy_spec defaultRetryPolicy (by decide) 3⟩

/-! ### C5: 5xx retries followed by a success -/

theorem post_retry_5xx_aux (p : RetryPolicy) (st : Nat)
    (hs : List (String × String)) (bd : String) (rest : List HttpTry)
    (h1 : 200 ≤ st) (h2 : st ≤ 299) :
    ∀ (errs : List HttpTry) (a : Nat),
      (∀ e ∈ errs, ∃ s h b, e = HttpTry.resp s h b ∧ 500 ≤ s ∧ s ≤ 599) →
      a + errs.length ≤ p.max_retries →
      (post_json_with_retry p a (errs ++ HttpTry.resp st hs bd :: rest)).2 =
          some (ExecResult.ok st hs bd) ∧
        (post_json_with_retry p a
            (errs ++ HttpTry.resp st hs bd :: rest)).1.length = errs.length := by
  intro errs
  induction errs with
  | nil =>
    intro a _ _
    simp [post_json_with_retry, h1, h2]
  | cons e errs ih =>
    intro a herrs hle
    obtain ⟨s, h, b, he, h5a, h5b⟩ := herrs e (by simp)
    subst he
    have hlt : a < p.max_retries := by
      simp only [List.length_cons] at hle; omega
    have hns : ¬ s ≤ 299 := by omega
    have hrec := ih (a + 1)
      (fun e he => herrs e (List.mem_cons_of_mem _ he))
      (by simp only [List.length_cons] at hle; omega)
    simp [post_json_with_retry, hns, h5a, h5b, hlt, hrec.1, hrec.2]

/-- C5: if the transport yields `N-1` consecutive 5xx responses followed
by one success response and `max_retries ≥ N-1`, the executor returns
the success response and sleeps exactly `N-1` times. -/
theorem retry_executor_5xx_then_success (p : RetryPolicy)
    (errs : List HttpTry) (st : Nat) (hs : List (String × String))
    (bd : String) (rest : List HttpTry)
    (herrs : ∀ e ∈ errs, ∃ s h b, e = HttpTry.resp s h b ∧ 500 ≤ s ∧ s ≤ 599)
    (h1 : 200 ≤ st) (h2 : st ≤ 299)
    (hret : errs.length ≤ p.max_retries) :
    (post_json_with_retry p 0 (errs ++ HttpTry.resp st hs bd :: rest)).2 =
      some (ExecResult.ok st hs bd) ∧
    (post_json_with_retry p 0
        (errs ++ HttpTry.resp st hs bd :: rest)).1.length = errs.length :=
  post_retry_5xx_aux p st hs bd rest h1 h2 errs 0 herrs (by omega)

theorem retry_executor_5xx_then_success_witness :
    (∀ e ∈ ([HttpTry.resp 500 [] "", HttpTry.resp 503 [] ""] : List HttpTry),
      ∃ s h b, e = HttpTry.resp s h b ∧ 500 ≤ s ∧ s ≤ 599) ∧
    ((post_json_with_retry defaultRetryPolicy 0
        ([HttpTry.resp 500 [] "", HttpTry.resp 503 [] ""] ++
          HttpTry.resp 200 [] "ok" :: [])).2 =
        some (ExecResult.ok 200 [] "ok") ∧
      (post_json_with_retry defaultRetryPolicy 0
          ([HttpTry.resp 500 [] "", HttpTry.resp 503 [] ""] ++
            HttpTry.resp 200 [] "ok" :: [])).1.length = 2) := by
  have herrs : ∀ e ∈ ([HttpTry.resp 500 [] "", HttpTry.resp 503 [] ""] :
      List HttpTry), ∃ s h b, e = HttpTry.resp s h b ∧ 500 ≤ s ∧ s ≤ 599 := by
    intro e he
    simp only [List.mem_cons, List.not_mem_nil, or_false] at he
    rcases he with rfl | rfl
    · exact ⟨500, [], "", rfl, by omega, by omega⟩
    · exact ⟨503, [], "", rfl, by omega, by omega⟩
  exact ⟨herrs,
    retry_executor_5xx_then_success defaultRetryPolicy
      [HttpTry.resp 500 [] "", HttpTry.resp 503 [] ""] 200 [] "ok" []
      herrs (by omega) (by omega) (by decide)⟩

/-! ### C6: a 429 with a Retry-After header -/

theorem parse_retry_after_of_header (hs : List (String × String))
    (hh : headerGet hs "retry-after" = some "5") :
    parse_retry_after_seconds hs = 5000000000 := by
  have h5 : rustParseU64 (rustTrim "5") = some 5 := by decide
  simp [parse_retry_after_seconds, hh, h5]

/-- C6: when a retryable 429 carries `Retry-After: 5`, the policy has
`respect_retry_after = true` and a retry remains, the delay slept before
the next attempt is the larger of the computed backoff and 5 seconds —
in particular at least 5 seconds. -/
theorem retry_respects_retry_after (p : RetryPolicy)
    (hs : List (String × String)) (bd : String) (rest : List HttpTry)
    (hresp : p.respect_retry_after = true)
    (hret : 0 < p.max_retries)
    (hh : headerGet hs "retry-after" = some "5") :
    (post_json_with_retry p 0 (HttpTry.resp 429 hs bd :: rest)).1.head? =
      some (max (p.backoff_for 0) 5000000000) ∧
    5000000000 ≤ max (p.backoff_for 0) 5000000000 := by
  have hpa := parse_retry_after_of_header hs hh
  refine ⟨?_, Nat.le_max_right _ _⟩
  have hmax : (if p.backoff_for 0 < 5000000000 then 5000000000
      else p.backoff_for 0) = max (p.backoff_for 0) 5000000000 := by
    split <;> omega
  simp [post_json_with_retry, hresp, hret, hpa, hmax]

theorem retry_respects_retry_after_witness :
    defaultRetryPolicy.respect_retry_after = true ∧
    0 < defaultRetryPolicy.max_retries ∧
    headerGet [("retry-after", "5")] "retry-after" = some "5" ∧
    ((post_json_with_retry defaultRetryPolicy 0
        (HttpTry.resp 429 [("retry-after", "5")] "" ::
          [HttpTry.resp 200 [] ""])).1.head? =
        some (max (defaultRetryPolicy.backoff_for 0) 5000000000) ∧
      5000000000 ≤ max (defaultRetryPolicy.backoff_for 0) 5000000000) :=
  ⟨rfl, by decide, rfl,
    retry_respects_retry_after defaultRetryPolicy [("retry-after", "5")] ""
      [HttpTry.resp 200 [] ""] rfl (by decide) rfl⟩

/-! ### C7: chunk boundaries never affect frame boundaries -/

theorem findDelim_bound :
    ∀ (b : List Nat) (p : Nat), findDelim b = some p → p + 2 ≤ b.length := by
  intro b
  induction b with
  | nil => intro p h; simp [findDelim] at h
  | cons a t ih =>
    intro p h
    cases t with
    | nil => simp [findDelim] at h
    | cons c t2 =>
      rw [findDelim] at h
      by_cases hac : (a == 10 && c == 10) = true
      · rw [if_pos hac] at h
        cases h
        simp
      · rw [if_neg hac] at h
        cases hq : findDelim (c :: t2) with
        | none => rw [hq] at h; simp at h
        | some q =>
          rw [hq, Option.map_some'] at h
          injection h with h
          subst h
          have := ih q hq
          simp only [List.length_cons] at this ⊢
          omega

theorem findDelim_append (y : List Nat) :
    ∀ (b : List Nat) (p : Nat), findDelim b = some p →
      findDelim (b ++ y) = some p := by
  intro b
  induction b with
  | nil => intro p h; simp [findDelim] at h
  | cons a t ih =>
    intro p h
    cases t with
    | nil => simp [findDelim] at h
    | cons c t2 =>
      rw [findDelim] at h
      rw [List.cons_append, List.cons_append, findDelim]
      by_cases hac : (a == 10 && c == 10) = true
      · rw [if_pos hac] at h ⊢; exact h
      · rw [if_neg hac] at h ⊢
        cases hq : findDelim (c :: t2) with
        | none => rw [hq] at h; simp at h
        | some q =>
          rw [hq] at h
          have := ih q hq
          rw [List.cons_append] at this
          rw [this]
          exact h

theorem splitFramesF_nil (f : Nat) : splitFramesF f [] = ([], []) := by
  cases f <;> simp [splitFramesF, findDelim]

theorem splitFramesF_congr :
    ∀ (f1 : Nat), ∀ (b : List Nat) (f2 : Nat), b.length ≤ f1 →
      b.length ≤ f2 → splitFramesF f1 b = splitFramesF f2 b := by
  intro f1
  induction f1 with
  | zero =>
    intro b f2 h1 _
    have : b = [] := List.eq_nil_of_length_eq_zero (by omega)
    subst this
    rw [splitFramesF_nil, splitFramesF_nil]
  | succ k ih =>
    intro b f2 h1 h2
    cases hd : findDelim b with
    | none =>
      cases f2 with
      | zero =>
        have : b = [] := List.eq_nil_of_length_eq_zero (by omega)
        subst this
        rw [splitFramesF_nil, splitFramesF_nil]
      | succ m => simp [splitFramesF, hd]
    | some p =>
      have hb := findDelim_bound b p hd
      cases f2 with
      | zero => omega
      | succ m =>
        simp only [splitFramesF, hd]
        have hdrop : (b.drop (p + 2)).length ≤ k := by simp; omega
        have hdrop2 : (b.drop (p + 2)).length ≤ m := by simp; omega
        rw [ih (b.drop (p + 2)) m hdrop hdrop2]

theorem splitFrames_eq_none (b : List Nat) (h : findDelim b = none) :
    splitFrames b = ([], b) := by
  unfold splitFrames
  cases b with
  | nil => rw [splitFramesF_nil]
  | cons a t => simp [splitFramesF, h]

theorem splitFrames_eq_some (b : List Nat) (p : Nat)
    (h : findDelim b = some p) :
    splitFrames b =
      (b.take (p + 2) :: (splitFrames (b.drop (p + 2))).1,
        (splitFrames (b.drop (p + 2))).2) := by
  have hb := findDelim_bound b p h
  unfold splitFrames
  cases hl : b.length with
  | zero => omega
  | succ k =>
    simp only [splitFramesF, h]
    have : splitFramesF k (b.drop (p + 2)) =
        splitFramesF (b.drop (p + 2)).length (b.drop (p + 2)) := by
      apply splitFramesF_congr
      · simp; omega
      · exact Nat.le_refl _
    rw [this]

theorem splitFrames_residue :
    ∀ (n : Nat) (b : List Nat), b.length ≤ n →
      findDelim (splitFrames b).2 = none := by
  intro n
  induction n with
  | zero =>
    intro b hb
    have : b = [] := List.eq_nil_of_length_eq_zero (by omega)
    subst this
    rw [splitFrames_eq_none [] rfl]
    rfl
  | succ k ih =>
    intro b hb
    cases hd : findDelim b with
    | none => rw [splitFrames_eq_none b hd]; exact hd
    | some p =>
      have hbnd := findDelim_bound b p hd
      rw [splitFrames_eq_some b p hd]
      exact ih (b.drop (p + 2)) (by simp; omega)

theorem splitFrames_append :
    ∀ (n : Nat) (b y : List Nat), b.length ≤ n →
      splitFrames (b ++ y) =
        ((splitFrames b).1 ++ (splitFrames ((splitFrames b).2 ++ y)).1,
          (splitFrames ((splitFrames b).2 ++ y)).2) := by
  intro n
  induction n with
  | zero =>
    intro b y hb
    have : b = [] := List.eq_nil_of_length_eq_zero (by omega)
    subst this
    rw [splitFrames_eq_none [] rfl]
    simp
  | succ k ih =>
    intro b y hb
    cases hd : findDelim b with
    | none =>
      rw [splitFrames_eq_none b hd]
      simp
    | some p =>
      have hbnd := findDelim_bound b p hd
      have hdy := findDelim_append y b p hd
      rw [splitFrames_eq_some b p hd,
        splitFrames_eq_some (b ++ y) p hdy,
        List.take_append_of_le_length hbnd,
        List.drop_append_of_le_length hbnd,
        ih (b.drop (p + 2)) y (by simp; omega)]
      simp

theorem decodeChunks_eq :
    ∀ (cs : List (List Nat)) (buf : List Nat), findDelim buf = none →
      decodeChunks buf cs = (splitFrames (buf ++ cs.flatten)).1 := by
  intro cs
  induction cs with
  | nil =>
    intro buf hb
    rw [decodeChunks, List.flatten_nil, List.append_nil,
      splitFrames_eq_none buf hb]
  | cons c cs ih =>
    intro buf hb
    have hres : findDelim (splitFrames (buf ++ c)).2 = none :=
      splitFrames_residue (buf ++ c).length (buf ++ c) (Nat.le_refl _)
    rw [decodeChunks, ih (splitFrames (buf ++ c)).2 hres,
      List.flatten_cons, ← List.append_assoc,
      splitFrames_append (buf ++ c).length (buf ++ c) cs.flatten
        (Nat.le_refl _)]

/-- C7: the Frame Decoder pipeline is a function of the concatenated
byte sequence alone — for any two chunkings of the same bytes it yields
the same ordered list of payloads and the same terminal condition, so
chunk boundaries never affect frame boundaries. -/
theorem frame_decoder_chunking_invariant (cs ds : List (List Nat))
    (h : cs.flatten = ds.flatten) : sseRun cs = sseRun ds := by
  unfold sseRun
  rw [decodeChunks_eq cs [] rfl, decodeChunks_eq ds [] rfl,
    List.nil_append, List.nil_append, h]

theorem frame_decoder_chunking_invariant_witness :
    ([exBytes] : List (List Nat)).flatten =
        ([exBytes.take 5, exBytes.drop 5] : List (List Nat)).flatten ∧
    sseRun [exBytes] = sseRun [exBytes.take 5, exBytes.drop 5] :=
  ⟨by simp, frame_decoder_chunking_invariant _ _ (by simp)⟩

/-! ### Association-list lemmas -/

theorem akeys_cons {α : Type} (k : Nat) (w : α) (t : List (Nat × α)) :
    akeys ((k, w) :: t) = k :: akeys t := rfl

theorem alookup_aset {α : Type} (l : List (Nat × α)) (i j : Nat) (v : α) :
    alookup (aset l i v) j = if i = j then some v else alookup l j := by
  induction l with
  | nil => by_cases hj : i = j <;> simp [aset, alookup, hj]
  | cons kv t ih =>
    obtain ⟨k, w⟩ := kv
    by_cases hk : k = i
    · subst hk
      by_cases hj : k = j <;> simp [aset, alookup, hj]
    · by_cases hj : k = j
      · subst hj
        have hij : ¬ i = k := fun h => hk h.symm
        simp [aset, alookup, hk, hij]
      · simp [aset, alookup, hk, hj, ih]

theorem mem_akeys_iff {α : Type} (l : List (Nat × α)) (i : Nat) :
    i ∈ akeys l ↔ ∃ v, alookup l i = some v := by
  induction l with
  | nil => simp [akeys, alookup]
  | cons kv t ih =>
    obtain ⟨k, w⟩ := kv
    by_cases hk : k = i
    · subst hk; simp [akeys_cons, alookup]
    · simp [akeys_cons, alookup, hk, ih]
      intro h; exact absurd h.symm hk

theorem alookup_eq_none {α : Type} (l : List (Nat × α)) (i : Nat) :
    alookup l i = none ↔ i ∉ akeys l := by
  rw [mem_akeys_iff]
  cases h : alookup l i <;> simp

theorem akeys_aset_mem {α : Type} (l : List (Nat × α)) (i : Nat) (v : α)
    (h : i ∈ akeys l) : akeys (aset l i v) = akeys l := by
  induction l with
  | nil => simp [akeys] at h
  | cons kv t ih =>
    obtain ⟨k, w⟩ := kv
    by_cases hk : k = i
    · subst hk; simp [aset, akeys_cons]
    · have ht : i ∈ akeys t := by
        rw [akeys_cons, List.mem_cons] at h
        rcases h with h | h
        · exact absurd h.symm hk
        · exact h
      simp [aset, hk, akeys_cons, ih ht]

theorem akeys_aset_notmem {α : Type} (l : List (Nat × α)) (i : Nat) (v : α)
    (h : i ∉ akeys l) : akeys (aset l i v) = akeys l ++ [i] := by
  induction l with
  | nil => simp [aset, akeys]
  | cons kv t ih =>
    obtain ⟨k, w⟩ := kv
    rw [akeys_cons, List.mem_cons] at h
    push_neg at h
    have hk : ¬ k = i := fun he => h.1 he.symm
    simp [aset, hk, akeys_cons, ih h.2]

theorem akeys_nodup_aset {α : Type} (l : List (Nat × α)) (i : Nat) (v : α)
    (h : (akeys l).Nodup) : (akeys (aset l i v)).Nodup := by
  by_cases hm : i ∈ akeys l
  · rw [akeys_aset_mem l i v hm]; exact h
  · rw [akeys_aset_notmem l i v hm]
    simp [List.nodup_append, h, hm]

theorem alookup_of_mem {α : Type} (l : List (Nat × α)) (i : Nat) (b : α)
    (hnd : (akeys l).Nodup) (hm : (i, b) ∈ l) : alookup l i = some b := by
  induction l with
  | nil => simp at hm
  | cons kv t ih =>
    obtain ⟨k, w⟩ := kv
    rw [akeys_cons, List.nodup_cons] at hnd
    rcases List.mem_cons.1 hm with he | ht
    · injection he with h1 h2
      subst h1; subst h2
      simp [alookup]
    · have hk : ¬ k = i := by
        intro he; subst he
        exact hnd.1 (List.mem_map_of_mem (fun kv => kv.1) ht)
      simp [alookup, hk]
      exact ih hnd.2 ht

theorem mem_of_alookup {α : Type} (l : List (Nat × α)) (i : Nat) (b : α)
    (h : alookup l i = some b) : (i, b) ∈ l := by
  induction l with
  | nil => simp [alookup] at h
  | cons kv t ih =>
    obtain ⟨k, w⟩ := kv
    rw [alookup] at h
    by_cases hk : k = i
    · rw [if_pos hk] at h
      injection h with h
      subst hk; subst h
      exact List.mem_cons_self _ _
    · rw [if_neg hk] at h
      exact List.mem_cons_of_mem _ (ih h)

/-! ### Event-list observer lemmas -/

theorem deltasFor_append (i : Nat) (a b : List StreamEvent) :
    deltasFor i (a ++ b) = deltasFor i a ++ deltasFor i b := by
  induction a with
  | nil => simp [deltasFor, String.empty_append]
  | cons e t ih =>
    cases e <;> simp [deltasFor, ih, String.append_assoc]

theorem countStarts_append (i : Nat) (a b : List StreamEvent) :
    countStarts i (a ++ b) = countStarts i a + countStarts i b := by
  simp [countStarts, List.filter_append]

theorem completesIdx_append (a b : List StreamEvent) :
    completesIdx (a ++ b) = completesIdx a ++ completesIdx b := by
  induction a with
  | nil => simp [completesIdx]
  | cons e t ih =>
    cases e <;> simp [completesIdx, ih]

/-! ### Step-level lemmas for the fragment machine -/

theorem stepId_some (i : Nat) (id : String)
    (seen : List (Nat × (Option String × Option String))) :
    stepId i (some id) seen =
      (aset seen i (some id, ((alookup seen i).getD (none, none)).2),
        if ((alookup seen i).getD (none, none)).1 = none
        then [.toolCallStart i (some id) ((alookup seen i).getD (none, none)).2]
        else []) := by
  simp only [stepId]
  cases h : ((alookup seen i).getD (none, none)).1 <;> simp [h]

theorem stepName_some (i : Nat) (nm : String)
    (seen : List (Nat × (Option String × Option String))) :
    stepName i (some nm) seen =
      (aset seen i (((alookup seen i).getD (none, none)).1, some nm),
        if ((alookup seen i).getD (none, none)).2 = none
        then [.toolCallStart i ((alookup seen i).getD (none, none)).1 (some nm)]
        else []) := by
  simp only [stepName]
  cases h : ((alookup seen i).getD (none, none)).2 <;> simp [h]

theorem deltasFor_stepId (j i : Nat) (idOpt : Option String)
    (seen : List (Nat × (Option String × Option String))) :
    deltasFor j (stepId i idOpt seen).2 = "" := by
  cases idOpt with
  | none => rfl
  | some id => rw [stepId_some]; split <;> rfl

theorem deltasFor_stepName (j i : Nat) (nameOpt : Option String)
    (seen : List (Nat × (Option String × Option String))) :
    deltasFor j (stepName i nameOpt seen).2 = "" := by
  cases nameOpt with
  | none => rfl
  | some nm => rw [stepName_some]; split <;> rfl

theorem deltasFor_stepArgs_self (i : Nat) (argsOpt : Option String)
    (ta : List (Nat × String)) :
    deltasFor i (stepArgs i argsOpt ta).2 = argsOpt.getD "" := by
  cases argsOpt with
  | none => rfl
  | some args =>
    simp only [stepArgs, Option.getD_some]
    by_cases h : args = ""
    · simp [h, deltasFor]
    · simp [h, deltasFor, String.append_empty]

theorem deltasFor_stepArgs_other (j i : Nat) (h : ¬ j = i)
    (argsOpt : Option String) (ta : List (Nat × String)) :
    deltasFor j (stepArgs i argsOpt ta).2 = "" := by
  cases argsOpt with
  | none => rfl
  | some args =>
    simp only [stepArgs]
    by_cases he : args = ""
    · simp [he, deltasFor]
    · have : (i == j) = false := by
        simp only [beq_eq_false_iff_ne]
        exact fun hij => h hij.symm
      simp [he, deltasFor, this, String.empty_append]

theorem stepArgs_buf_self (i : Nat) (argsOpt : Option String)
    (ta : List (Nat × String)) :
    (alookup (stepArgs i argsOpt ta).1 i).getD "" =
      (alookup ta i).getD "" ++ argsOpt.getD "" := by
  cases argsOpt with
  | none => exact (String.append_empty _).symm
  | some args =>
    simp only [stepArgs, Option.getD_some]
    rw [alookup_aset, if_pos rfl, Option.getD_some]

theorem stepArgs_buf_other (j i : Nat) (h : ¬ i = j)
    (argsOpt : Option String) (ta : List (Nat × String)) :
    alookup (stepArgs i argsOpt ta).1 j = alookup ta j := by
  cases argsOpt with
  | none => rfl
  | some args =>
    simp only [stepArgs]
    rw [alookup_aset, if_neg h]

theorem stepId_seen_other (i : Nat) (idOpt : Option String)
    (seen : List (Nat × (Option String × Option String)))
    (j : Nat) (h : ¬ i = j) :
    alookup (stepId i idOpt seen).1 j = alookup seen j := by
  cases idOpt with
  | none => rfl
  | some id => rw [stepId_some, alookup_aset, if_neg h]

theorem stepName_seen_other (i : Nat) (nameOpt : Option String)
    (seen : List (Nat × (Option String × Option String)))
    (j : Nat) (h : ¬ i = j) :
    alookup (stepName i nameOpt seen).1 j = alookup seen j := by
  cases nameOpt with
  | none => rfl
  | some nm => rw [stepName_some, alookup_aset, if_neg h]

theorem seenHasId_stepId_self (i : Nat) (idOpt : Option String)
    (seen : List (Nat × (Option String × Option String))) :
    seenHasId (stepId i idOpt seen).1 i = (seenHasId seen i || idOpt.isSome) := by
  cases idOpt with
  | none => simp [stepId]
  | some id =>
    rw [stepId_some]
    simp only [seenHasId, alookup_aset, if_pos rfl]
    cases h : alookup seen i with
    | none => simp [h]
    | some e => cases e with | mk a b => cases a <;> simp [h]

theorem seenHasName_stepId (i : Nat) (idOpt : Option String)
    (seen : List (Nat × (Option String × Option String))) (j : Nat) :
    seenHasName (stepId i idOpt seen).1 j = seenHasName seen j := by
  by_cases hij : i = j
  · subst hij
    cases idOpt with
    | none => rfl
    | some id =>
      rw [stepId_some]
      simp only [seenHasName, alookup_aset, if_pos rfl]
      cases h : alookup seen i with
      | none => simp [h]
      | some e => cases e with | mk a b => cases b <;> simp [h]
  · rw [seenHasName, seenHasName, stepId_seen_other i idOpt seen j hij]

theorem seenHasId_stepId_other (i : Nat) (idOpt : Option String)
    (seen : List (Nat × (Option String × Option String)))
    (j : Nat) (h : ¬ i = j) :
    seenHasId (stepId i idOpt seen).1 j = seenHasId seen j := by
  rw [seenHasId, seenHasId, stepId_seen_other i idOpt seen j h]

theorem seenHasName_stepName_self (i : Nat) (nameOpt : Option String)
    (seen : List (Nat × (Option String × Option String))) :
    seenHasName (stepName i nameOpt seen).1 i =
      (seenHasName seen i || nameOpt.isSome) := by
  cases nameOpt with
  | none => simp [stepId, stepName]
  | some nm =>
    rw [stepName_some]
    simp only [seenHasName, alookup_aset, if_pos rfl]
    cases h : alookup seen i with
    | none => simp [h]
    | some e => cases e with | mk a b => cases b <;> simp [h]

theorem seenHasId_stepName (i : Nat) (nameOpt : Option String)
    (seen : List (Nat × (Option String × Option String))) (j : Nat) :
    seenHasId (stepName i nameOpt seen).1 j = seenHasId seen j := by
  by_cases hij : i = j
  · subst hij
    cases nameOpt with
    | none => rfl
    | some nm =>
      rw [stepName_some]
      simp only [seenHasId, alookup_aset, if_pos rfl]
      cases h : alookup seen i with
      | none => simp [h]
      | some e => cases e with | mk a b => cases a <;> simp [h]
  · rw [seenHasId, seenHasId, stepName_seen_other i nameOpt seen j hij]

theorem seenHasName_stepName_other (i : Nat) (nameOpt : Option String)
    (seen : List (Nat × (Option String × Option String)))
    (j : Nat) (h : ¬ i = j) :
    seenHasName (stepName i nameOpt seen).1 j = seenHasName seen j := by
  rw [seenHasName, seenHasName, stepName_seen_other i nameOpt seen j h]

theorem countStarts_stepId (j i : Nat) (idOpt : Option String)
    (seen : List (Nat × (Option String × Option String))) :
    countStarts j (stepId i idOpt seen).2 =
      if i = j ∧ idOpt.isSome = true ∧ seenHasId seen i = false then 1
      else 0 := by
  cases idOpt with
  | none => simp [stepId, countStarts]
  | some id =>
    rw [stepId_some]
    have hid : (((alookup seen i).getD (none, none)).1 = none) ↔
        seenHasId seen i = false := by
      rw [seenHasId]
      cases h : alookup seen i with
      | none => simp [h]
      | some e => cases e with | mk a b => cases a <;> simp [h]
    by_cases h1 : ((alookup seen i).getD (none, none)).1 = none
    · rw [if_pos h1]
      have hfalse : seenHasId seen i = false := hid.1 h1
      by_cases hij : i = j
      · subst hij
        simp [countStarts, isStartB, hfalse]
      · have : (i == j) = false := by simp [hij]
        simp [countStarts, isStartB, this, hij]
    · rw [if_neg h1]
      have htrue : ¬ seenHasId seen i = false := fun hc => h1 (hid.2 hc)
      simp [countStarts, htrue]

theorem countStarts_stepName (j i : Nat) (nameOpt : Option String)
    (seen : List (Nat × (Option String × Option String))) :
    countStarts j (stepName i nameOpt seen).2 =
      if i = j ∧ nameOpt.isSome = true ∧ seenHasName seen i = false then 1
      else 0 := by
  cases nameOpt with
  | none => simp [stepName, countStarts]
  | some nm =>
    rw [stepName_some]
    have hid : (((alookup seen i).getD (none, none)).2 = none) ↔
        seenHasName seen i = false := by
      rw [seenHasName]
      cases h : alookup seen i with
      | none => simp [h]
      | some e => cases e with | mk a b => cases b <;> simp [h]
    by_cases h1 : ((alookup seen i).getD (none, none)).2 = none
    · rw [if_pos h1]
      have hfalse : seenHasName seen i = false := hid.1 h1
      by_cases hij : i = j
      · subst hij
        simp [countStarts, isStartB, hfalse]
      · have : (i == j) = false := by simp [hij]
        simp [countStarts, isStartB, this, hij]
    · rw [if_neg h1]
      have htrue : ¬ seenHasName seen i = false := fun hc => h1 (hid.2 hc)
      simp [countStarts, htrue]

theorem countStarts_stepArgs (j i : Nat) (argsOpt : Option String)
    (ta : List (Nat × String)) :
    countStarts j (stepArgs i argsOpt ta).2 = 0 := by
  cases argsOpt with
  | none => rfl
  | some args =>
    simp only [stepArgs]
    split <;> simp [countStarts, isStartB]

/-! ### Fragment-level lemmas -/

theorem orInsertSeen_hasId (seen : List (Nat × (Option String × Option String)))
    (i j : Nat) : seenHasId (orInsertSeen seen i) j = seenHasId seen j := by
  rw [orInsertSeen]
  cases h : alookup seen i with
  | some e => rfl
  | none =>
    by_cases hij : i = j
    · subst hij; simp [seenHasId, alookup_aset, h]
    · simp [seenHasId, alookup_aset, hij]

theorem orInsertSeen_hasName
    (seen : List (Nat × (Option String × Option String)))
    (i j : Nat) : seenHasName (orInsertSeen seen i) j = seenHasName seen j := by
  rw [orInsertSeen]
  cases h : alookup seen i with
  | some e => rfl
  | none =>
    by_cases hij : i = j
    · subst hij; simp [seenHasName, alookup_aset, h]
    · simp [seenHasName, alookup_aset, hij]

theorem isStreamEvt_stepId (i : Nat) (idOpt : Option String)
    (seen : List (Nat × (Option String × Option String))) :
    ∀ e ∈ (stepId i idOpt seen).2, isStreamEvt e = true := by
  cases idOpt with
  | none => intro e he; simp [stepId] at he
  | some id =>
    rw [stepId_some]
    split
    · intro e he
      simp only [List.mem_singleton] at he
      subst he; rfl
    · intro e he; simp at he

theorem isStreamEvt_stepName (i : Nat) (nameOpt : Option String)
    (seen : List (Nat × (Option String × Option String))) :
    ∀ e ∈ (stepName i nameOpt seen).2, isStreamEvt e = true := by
  cases nameOpt with
  | none => intro e he; simp [stepName] at he
  | some nm =>
    rw [stepName_some]
    split
    · intro e he
      simp only [List.mem_singleton] at he
      subst he; rfl
    · intro e he; simp at he

theorem isStreamEvt_stepArgs (i : Nat) (argsOpt : Option String)
    (ta : List (Nat × String)) :
    ∀ e ∈ (stepArgs i argsOpt ta).2, isStreamEvt e = true := by
  cases argsOpt with
  | none => intro e he; simp [stepArgs] at he
  | some args =>
    simp only [stepArgs]
    split
    · intro e he; simp at he
    · intro e he
      simp only [List.mem_singleton] at he
      subst he; rfl

theorem completesIdx_of_stream (evs : List StreamEvent)
    (h : ∀ e ∈ evs, isStreamEvt e = true) : completesIdx evs = [] := by
  induction evs with
  | nil => rfl
  | cons e t ih =>
    have ht := fun x hx => h x (List.mem_cons_of_mem _ hx)
    have he := h e (List.mem_cons_self _ _)
    cases e <;> simp [completesIdx, ih ht] <;> simp [isStreamEvt] at he

theorem processFragment_stream (s : TCState) (tc : ToolCallDelta) :
    ∀ e ∈ (processFragment s tc).2, isStreamEvt e = true := by
  cases hf : tc.function with
  | none =>
    simp only [processFragment, hf]
    exact isStreamEvt_stepId _ _ _
  | some f =>
    simp only [processFragment, hf]
    intro e he
    rcases List.mem_append.1 he with he2 | he3
    · rcases List.mem_append.1 he2 with h1 | h2
      · exact isStreamEvt_stepId _ _ _ e h1
      · exact isStreamEvt_stepName _ _ _ e h2
    · exact isStreamEvt_stepArgs _ _ _ e he3

theorem processFragment_buf (s : TCState) (tc : ToolCallDelta) (i : Nat) :
    bufOf (processFragment s tc).1 i =
      bufOf s i ++ deltasFor i (processFragment s tc).2 := by
  cases hf : tc.function with
  | none =>
    simp only [processFragment, hf, bufOf]
    rw [deltasFor_stepId, String.append_empty]
  | some f =>
    simp only [processFragment, hf, bufOf]
    rw [deltasFor_append, deltasFor_append, deltasFor_stepId,
      deltasFor_stepName, String.empty_append, String.empty_append]
    by_cases hij : tc.index = i
    · subst hij
      rw [stepArgs_buf_self, deltasFor_stepArgs_self]
    · rw [deltasFor_stepArgs_other i tc.index (fun h => hij h.symm),
        String.append_empty, stepArgs_buf_other i tc.index hij]

theorem processFragment_keys (s : TCState) (tc : ToolCallDelta) :
    akeys (processFragment s tc).1.toolArgs =
      (if fragHasArgs tc = true ∧ tc.index ∉ akeys s.toolArgs
       then akeys s.toolArgs ++ [tc.index] else akeys s.toolArgs) := by
  cases hf : tc.function with
  | none =>
    simp only [processFragment, hf]
    rw [if_neg]
    intro hc
    rw [fragHasArgs, hf] at hc
    exact absurd hc.1 (by simp)
  | some f =>
    cases ha : f.arguments with
    | none =>
      simp only [processFragment, hf, stepArgs, ha]
      rw [if_neg]
      intro hc
      simp [fragHasArgs, hf, ha] at hc
    | some args =>
      simp only [processFragment, hf, stepArgs, ha]
      by_cases hm : tc.index ∈ akeys s.toolArgs
      · rw [akeys_aset_mem _ _ _ hm, if_neg (fun hc => hc.2 hm)]
      · rw [akeys_aset_notmem _ _ _ hm,
          if_pos ⟨by simp [fragHasArgs, hf, ha], hm⟩]

theorem processFragment_hasId (s : TCState) (tc : ToolCallDelta) (j : Nat) :
    hasIdSeen (processFragment s tc).1 j =
      (hasIdSeen s j || (tc.index == j && tc.id.isSome)) := by
  cases hf : tc.function with
  | none =>
    simp only [processFragment, hf, hasIdSeen]
    by_cases hij : tc.index = j
    · subst hij
      rw [seenHasId_stepId_self, orInsertSeen_hasId]
      simp
    · rw [seenHasId_stepId_other _ _ _ _ hij, orInsertSeen_hasId]
      have : (tc.index == j) = false := by simp [hij]
      simp [this]
  | some f =>
    simp only [processFragment, hf, hasIdSeen]
    rw [seenHasId_stepName]
    by_cases hij : tc.index = j
    · subst hij
      rw [seenHasId_stepId_self, orInsertSeen_hasId]
      simp
    · rw [seenHasId_stepId_other _ _ _ _ hij, orInsertSeen_hasId]
      have : (tc.index == j) = false := by simp [hij]
      simp [this]

theorem processFragment_hasName (s : TCState) (tc : ToolCallDelta) (j : Nat) :
    hasNameSeen (processFragment s tc).1 j =
      (hasNameSeen s j || (tc.index == j && fragHasName tc)) := by
  cases hf : tc.function with
  | none =>
    simp only [processFragment, hf, hasNameSeen]
    rw [seenHasName_stepId, orInsertSeen_hasName]
    have : fragHasName tc = false := by simp [fragHasName, hf]
    simp [this]
  | some f =>
    simp only [processFragment, hf, hasNameSeen]
    have hfn : fragHasName tc = f.name.isSome := by simp [fragHasName, hf]
    by_cases hij : tc.index = j
    · subst hij
      rw [seenHasName_stepName_self, seenHasName_stepId, orInsertSeen_hasName,
        hfn]
      simp
    · rw [seenHasName_stepName_other _ _ _ _ hij, seenHasName_stepId,
        orInsertSeen_hasName]
      have : (tc.index == j) = false := by simp [hij]
      simp [this]

theorem processFragment_countStarts (s : TCState) (tc : ToolCallDelta)
    (j : Nat) :
    countStarts j (processFragment s tc).2 =
      (if tc.index = j ∧ tc.id.isSome = true ∧ hasIdSeen s tc.index = false
       then 1 else 0) +
      (if tc.index = j ∧ fragHasName tc = true ∧
          hasNameSeen s tc.index = false
       then 1 else 0) := by
  cases hf : tc.function with
  | none =>
    simp only [processFragment, hf]
    rw [countStarts_stepId, orInsertSeen_hasId]
    have : fragHasName tc = false := by simp [fragHasName, hf]
    simp [this, hasIdSeen]
  | some f =>
    simp only [processFragment, hf]
    rw [countStarts_append, countStarts_append, countStarts_stepId,
      countStarts_stepName, countStarts_stepArgs, orInsertSeen_hasId,
      seenHasName_stepId, orInsertSeen_hasName]
    have hfn : fragHasName tc = f.name.isSome := by simp [fragHasName, hf]
    simp [hfn, hasIdSeen, hasNameSeen]

/-! ### Fragment-list (fold) lemmas -/

theorem processFragments_stream (l : List ToolCallDelta) :
    ∀ (s : TCState), ∀ e ∈ (processFragments s l).2, isStreamEvt e = true := by
  induction l with
  | nil => intro s e he; simp [processFragments] at he
  | cons tc rest ih =>
    intro s e he
    simp only [processFragments] at he
    rcases List.mem_append.1 he with h1 | h2
    · exact processFragment_stream s tc e h1
    · exact ih _ e h2

theorem processFragments_buf (l : List ToolCallDelta) :
    ∀ (s : TCState) (i : Nat),
      bufOf (processFragments s l).1 i =
        bufOf s i ++ deltasFor i (processFragments s l).2 := by
  induction l with
  | nil =>
    intro s i
    simp [processFragments, deltasFor, String.append_empty]
  | cons tc rest ih =>
    intro s i
    simp only [processFragments]
    rw [deltasFor_append, ih, processFragment_buf, String.append_assoc]

theorem processFragments_keys (l : List ToolCallDelta) :
    ∀ (s : TCState),
      akeys (processFragments s l).1.toolArgs =
        firstArgOrder (akeys s.toolArgs) l := by
  induction l with
  | nil => intro s; simp [processFragments, firstArgOrder]
  | cons tc rest ih =>
    intro s
    simp only [processFragments, firstArgOrder]
    rw [ih, processFragment_keys]
    by_cases hm : tc.index ∈ akeys s.toolArgs
    · rw [if_neg (fun h => h.2 hm)]
      simp [hm]
    · by_cases ha : fragHasArgs tc = true
      · rw [if_pos ⟨ha, hm⟩]
        simp [ha, hm]
      · rw [if_neg (fun h => ha h.1)]
        simp [ha]

theorem firstArgOrder_nodup (l : List ToolCallDelta) :
    ∀ (acc : List Nat), acc.Nodup → (firstArgOrder acc l).Nodup := by
  induction l with
  | nil => intro acc h; exact h
  | cons tc rest ih =>
    intro acc h
    rw [firstArgOrder]
    apply ih
    split
    · next hcond =>
      have hm : tc.index ∉ acc := by
        rcases Bool.and_eq_true_iff.1 hcond with ⟨_, h2⟩
        simp [List.elem_iff] at h2
        exact h2
      simp [List.nodup_append, h, hm]
    · exact h

theorem processFragments_hasId (l : List ToolCallDelta) :
    ∀ (s : TCState) (j : Nat),
      hasIdSeen (processFragments s l).1 j =
        (hasIdSeen s j || anyIdFrag j l) := by
  induction l with
  | nil => intro s j; simp [processFragments, anyIdFrag]
  | cons tc rest ih =>
    intro s j
    simp only [processFragments]
    rw [ih, processFragment_hasId]
    simp [anyIdFrag, Bool.or_assoc]

theorem processFragments_hasName (l : List ToolCallDelta) :
    ∀ (s : TCState) (j : Nat),
      hasNameSeen (processFragments s l).1 j =
        (hasNameSeen s j || anyNameFrag j l) := by
  induction l with
  | nil => intro s j; simp [processFragments, anyNameFrag]
  | cons tc rest ih =>
    intro s j
    simp only [processFragments]
    rw [ih, processFragment_hasName]
    simp [anyNameFrag, Bool.or_assoc]

theorem processFragments_countStarts (l : List ToolCallDelta) :
    ∀ (s : TCState) (j : Nat),
      countStarts j (processFragments s l).2 =
        (if anyIdFrag j l = true ∧ hasIdSeen s j = false then 1 else 0) +
        (if anyNameFrag j l = true ∧ hasNameSeen s j = false then 1
         else 0) := by
  induction l with
  | nil =>
    intro s j
    simp [processFragments, countStarts, anyIdFrag, anyNameFrag]
  | cons tc rest ih =>
    intro s j
    simp only [processFragments]
    rw [countStarts_append, processFragment_countStarts, ih,
      processFragment_hasId, processFragment_hasName]
    have hanyId : anyIdFrag j (tc :: rest) =
        ((tc.index == j && tc.id.isSome) || anyIdFrag j rest) := by
      simp [anyIdFrag]
    have hanyName : anyNameFrag j (tc :: rest) =
        ((tc.index == j && fragHasName tc) || anyNameFrag j rest) := by
      simp [anyNameFrag]
    rw [hanyId, hanyName]
    by_cases hb : tc.index = j
    · subst hb
      simp only [beq_self_eq_true, Bool.true_and, true_and]
      by_cases hid : tc.id.isSome = true <;>
        by_cases hsid : hasIdSeen s tc.index = false <;>
          by_cases hnm : fragHasName tc = true <;>
            by_cases hsnm : hasNameSeen s tc.index = false <;>
              simp_all <;> omega
    · have hbf : (tc.index == j) = false := by simp [hb]
      have h1 : ¬ (tc.index = j ∧ tc.id.isSome = true ∧
          hasIdSeen s tc.index = false) := fun h => hb h.1
      have h2 : ¬ (tc.index = j ∧ fragHasName tc = true ∧
          hasNameSeen s tc.index = false) := fun h => hb h.1
      rw [if_neg h1, if_neg h2]
      simp [hbf]

/-! ### Choice-level lemmas -/

theorem textEvents_stream (o : Option String) :
    ∀ e ∈ textEvents o, isStreamEvt e = true := by
  cases o with
  | none => intro e he; simp [textEvents] at he
  | some t =>
    by_cases h : t = ""
    · intro e he; simp [textEvents, h] at he
    · intro e he
      simp [textEvents, h] at he
      subst he; rfl

theorem textEvents_deltas (i : Nat) (o : Option String) :
    deltasFor i (textEvents o) = "" := by
  cases o with
  | none => rfl
  | some t =>
    by_cases h : t = "" <;> simp [textEvents, h, deltasFor]

theorem textEvents_countStarts (j : Nat) (o : Option String) :
    countStarts j (textEvents o) = 0 := by
  cases o with
  | none => rfl
  | some t =>
    by_cases h : t = "" <;> simp [textEvents, h, countStarts, isStartB]

theorem toolEvents_eq (s : TCState) (o : Option (List ToolCallDelta)) :
    toolEvents s o = processFragments s (o.getD []) := by
  cases o <;> rfl

theorem firstArgOrder_append (a b : List ToolCallDelta) :
    ∀ acc, firstArgOrder acc (a ++ b) = firstArgOrder (firstArgOrder acc a) b := by
  induction a with
  | nil => intro acc; simp [firstArgOrder]
  | cons tc rest ih =>
    intro acc
    rw [List.cons_append, firstArgOrder, firstArgOrder, ih]

theorem anyIdFrag_append (j : Nat) (a b : List ToolCallDelta) :
    anyIdFrag j (a ++ b) = (anyIdFrag j a || anyIdFrag j b) := by
  simp [anyIdFrag, List.any_append]

theorem anyNameFrag_append (j : Nat) (a b : List ToolCallDelta) :
    anyNameFrag j (a ++ b) = (anyNameFrag j a || anyNameFrag j b) := by
  simp [anyNameFrag, List.any_append]

theorem count_split (a1 a2 hI b1 b2 hN : Bool) :
    ((if a1 = true ∧ hI = false then 1 else 0) +
      (if b1 = true ∧ hN = false then 1 else 0)) +
    ((if a2 = true ∧ (hI || a1) = false then 1 else 0) +
      (if b2 = true ∧ (hN || b1) = false then 1 else 0)) =
    (if (a1 || a2) = true ∧ hI = false then 1 else 0) +
    (if (b1 || b2) = true ∧ hN = false then 1 else 0) := by
  cases a1 <;> cases a2 <;> cases hI <;> cases b1 <;> cases b2 <;>
    cases hN <;> simp

theorem processChoices_cont (parse : String → Option Json)
    (iter : List (Nat × String) → List (Nat × String)) :
    ∀ (cs : List ChunkChoice) (s s1 : TCState),
      (processChoices parse iter s cs).2 = .cont s1 →
      ((∀ e ∈ (processChoices parse iter s cs).1, isStreamEvt e = true) ∧
        (∀ i, bufOf s1 i =
          bufOf s i ++ deltasFor i (processChoices parse iter s cs).1) ∧
        akeys s1.toolArgs =
          firstArgOrder (akeys s.toolArgs) (choicesFrags cs) ∧
        (∀ j, hasIdSeen s1 j =
          (hasIdSeen s j || anyIdFrag j (choicesFrags cs))) ∧
        (∀ j, hasNameSeen s1 j =
          (hasNameSeen s j || anyNameFrag j (choicesFrags cs))) ∧
        (∀ j, countStarts j (processChoices parse iter s cs).1 =
          (if anyIdFrag j (choicesFrags cs) = true ∧ hasIdSeen s j = false
           then 1 else 0) +
          (if anyNameFrag j (choicesFrags cs) = true ∧
              hasNameSeen s j = false
           then 1 else 0))) := by
  intro cs
  induction cs with
  | nil =>
    intro s s1 h
    simp only [processChoices] at h ⊢
    injection h with h
    subst h
    refine ⟨by simp, fun i => by simp [deltasFor, String.append_empty],
      by simp [choicesFrags, firstArgOrder],
      fun j => by simp [choicesFrags, anyIdFrag],
      fun j => by simp [choicesFrags, anyNameFrag],
      fun j => by simp [choicesFrags, anyIdFrag, anyNameFrag, countStarts]⟩
  | cons c cs ih =>
    intro s s1 h
    by_cases hidx : c.index ≠ 0
    · have hcf : choiceFrags c = [] := by simp [choiceFrags, hidx]
      simp only [processChoices, if_pos hidx] at h ⊢
      have hres := ih s s1 h
      simpa [choicesFrags, hcf] using hres
    · have hcf : choiceFrags c = c.delta.tool_calls.getD [] := by
        simp [choiceFrags, hidx]
      cases hFin : c.finish_reason with
      | some r =>
        simp only [processChoices, if_neg hidx, hFin] at h
        cases h
      | none =>
        simp only [processChoices, if_neg hidx, hFin] at h ⊢
        rw [toolEvents_eq] at h ⊢
        obtain ⟨ihS, ihB, ihK, ihI, ihN, ihC⟩ := ih _ s1 h
        have hCfrags : choicesFrags (c :: cs) =
            choiceFrags c ++ choicesFrags cs := rfl
        refine ⟨?_, ?_, ?_, ?_, ?_, ?_⟩
        · intro e he
          rcases List.mem_append.1 he with h12 | h3
          · rcases List.mem_append.1 h12 with h1 | h2
            · exact textEvents_stream _ e h1
            · exact processFragments_stream _ _ e h2
          · exact ihS e h3
        · intro i
          rw [deltasFor_append, deltasFor_append, textEvents_deltas,
            String.empty_append, ihB i, processFragments_buf,
            String.append_assoc]
        · rw [hCfrags, firstArgOrder_append, hcf, ihK,
            processFragments_keys]
        · intro j
          rw [hCfrags, anyIdFrag_append, hcf, ihI j,
            processFragments_hasId]
          simp [Bool.or_assoc]
        · intro j
          rw [hCfrags, anyNameFrag_append, hcf, ihN j,
            processFragments_hasName]
          simp [Bool.or_assoc]
        · intro j
          rw [countStarts_append, countStarts_append,
            textEvents_countStarts, ihC j, processFragments_countStarts,
            processFragments_hasId, processFragments_hasName,
            hCfrags, anyIdFrag_append, anyNameFrag_append, hcf]
          rw [Nat.zero_add, count_split]

/-! ### Finalization lemmas -/

theorem getLast?_cons_of_ne_nil {α : Type} (a : α) (l : List α)
    (h : l ≠ []) : (a :: l).getLast? = l.getLast? := by
  rw [show a :: l = [a] ++ l from rfl, List.getLast?_append_of_ne_nil _ h]

theorem completeLoop_complete (parse : String → Option Json)
    (seen : List (Nat × (Option String × Option String))) :
    ∀ (l : List (Nat × String)) (i : Nat)
      (intent : GenericFunctionCallIntent),
      StreamEvent.toolCallComplete i intent ∈ (completeLoop parse l seen).1 →
      ∃ buf, (i, buf) ∈ l ∧ parse buf = some intent.function.arguments := by
  intro l
  induction l with
  | nil =>
    intro i intent h
    simp [completeLoop] at h
  | cons kv rest ih =>
    obtain ⟨k, b⟩ := kv
    intro i intent h
    rw [completeLoop] at h
    cases hp : parse b with
    | none => rw [hp] at h; simp at h
    | some v =>
      rw [hp] at h
      simp only [List.mem_cons] at h
      rcases h with he | ht
      · injection he with h1 h2
        subst h1
        subst h2
        exact ⟨b, List.mem_cons_self _ _, by rw [hp]⟩
      · obtain ⟨buf, hm, hpb⟩ := ih i intent ht
        exact ⟨buf, List.mem_cons_of_mem _ hm, hpb⟩

theorem completeLoop_deltas (parse : String → Option Json) (i : Nat)
    (seen : List (Nat × (Option String × Option String))) :
    ∀ (l : List (Nat × String)),
      deltasFor i (completeLoop parse l seen).1 = "" := by
  intro l
  induction l with
  | nil => rfl
  | cons kv rest ih =>
    obtain ⟨k, b⟩ := kv
    rw [completeLoop]
    cases hp : parse b with
    | none => rfl
    | some v => simp [deltasFor, ih]

theorem completeLoop_outcome (parse : String → Option Json)
    (seen : List (Nat × (Option String × Option String))) :
    ∀ (l : List (Nat × String)),
      ((completeLoop parse l seen).2 = .done ∧
        (completeLoop parse l seen).1.getLast? = some .messageEnd) ∨
      (completeLoop parse l seen).2 = .errored := by
  intro l
  induction l with
  | nil => left; exact ⟨rfl, rfl⟩
  | cons kv rest ih =>
    obtain ⟨k, b⟩ := kv
    rw [completeLoop]
    cases hp : parse b with
    | none => right; rfl
    | some v =>
      rcases ih with ⟨h1, h2⟩ | h1
      · left
        refine ⟨by simpa using h1, ?_⟩
        have hne : (completeLoop parse rest seen).1 ≠ [] := by
          intro hnil; rw [hnil] at h2; simp at h2
        simpa [getLast?_cons_of_ne_nil _ _ hne] using h2
      · right; simpa using h1

theorem completeLoop_all_ok (parse : String → Option Json)
    (seen : List (Nat × (Option String × Option String))) :
    ∀ (l : List (Nat × String)), (∀ kv ∈ l, (parse kv.2).isSome = true) →
      completesIdx (completeLoop parse l seen).1 = l.map (fun kv => kv.1) ∧
      (completeLoop parse l seen).2 = .done := by
  intro l
  induction l with
  | nil => intro _; exact ⟨rfl, rfl⟩
  | cons kv rest ih =>
    obtain ⟨k, b⟩ := kv
    intro hall
    rw [completeLoop]
    cases hp : parse b with
    | none =>
      have := hall (k, b) (List.mem_cons_self _ _)
      rw [hp] at this
      simp at this
    | some v =>
      obtain ⟨ih1, ih2⟩ := ih (fun kv h => hall kv (List.mem_cons_of_mem _ h))
      constructor
      · simp [completesIdx, ih1]
      · simpa using ih2

theorem finishEvents_outcome (parse : String → Option Json)
    (iter : List (Nat × String) → List (Nat × String)) (s : TCState)
    (r : FinishReason) :
    ((finishEvents parse iter s r).2 = .done ∧
      (finishEvents parse iter s r).1.getLast? = some .messageEnd) ∨
    (finishEvents parse iter s r).2 = .errored := by
  cases r with
  | toolCalls => exact completeLoop_outcome parse s.toolSeen (iter s.toolArgs)
  | stop => left; exact ⟨rfl, rfl⟩
  | length => left; exact ⟨rfl, rfl⟩
  | contentFilter => left; exact ⟨rfl, rfl⟩

theorem finishEvents_complete (parse : String → Option Json)
    (iter : List (Nat × String) → List (Nat × String)) (s : TCState)
    (r : FinishReason) (i : Nat) (intent : GenericFunctionCallIntent)
    (h : StreamEvent.toolCallComplete i intent ∈
      (finishEvents parse iter s r).1) :
    ∃ buf, (i, buf) ∈ iter s.toolArgs ∧
      parse buf = some intent.function.arguments := by
  cases r with
  | toolCalls => exact completeLoop_complete parse s.toolSeen _ i intent h
  | stop => simp [finishEvents] at h
  | length => simp [finishEvents] at h
  | contentFilter => simp [finishEvents] at h

theorem finishEvents_deltas (parse : String → Option Json)
    (iter : List (Nat × String) → List (Nat × String)) (s : TCState)
    (r : FinishReason) (i : Nat) :
    deltasFor i (finishEvents parse iter s r).1 = "" := by
  cases r with
  | toolCalls => exact completeLoop_deltas parse i s.toolSeen _
  | stop => rfl
  | length => rfl
  | contentFilter => rfl

theorem processChoices_stop (parse : String → Option Json)
    (iter : List (Nat × String) → List (Nat × String)) :
    ∀ (cs : List ChunkChoice) (s : TCState) (o : Outcome),
      (processChoices parse iter s cs).2 = .stop o →
      ∃ (s1 : TCState) (r : FinishReason) (evsS : List StreamEvent),
        (processChoices parse iter s cs).1 =
          evsS ++ (finishEvents parse iter s1 r).1 ∧
        o = (finishEvents parse iter s1 r).2 ∧
        (∀ e ∈ evsS, isStreamEvt e = true) ∧
        (∀ i, bufOf s1 i = bufOf s i ++ deltasFor i evsS) ∧
        (∃ fr rest2, choicesFrags cs = fr ++ rest2 ∧
          akeys s1.toolArgs = firstArgOrder (akeys s.toolArgs) fr) := by
  intro cs
  induction cs with
  | nil =>
    intro s o h
    simp only [processChoices] at h
    cases h
  | cons c cs ih =>
    intro s o h
    by_cases hidx : c.index ≠ 0
    · have hcf : choiceFrags c = [] := by simp [choiceFrags, hidx]
      simp only [processChoices, if_pos hidx] at h ⊢
      obtain ⟨s1, r, evsS, hEq, hOut, hStream, hBuf, fr, rest2, hSplit,
        hKeys⟩ := ih s o h
      exact ⟨s1, r, evsS, hEq, hOut, hStream, hBuf, fr, rest2,
        by rw [show choicesFrags (c :: cs) = choiceFrags c ++ choicesFrags cs
            from rfl, hcf, List.nil_append, hSplit], hKeys⟩
    · have hcf : choiceFrags c = c.delta.tool_calls.getD [] := by
        simp [choiceFrags, hidx]
      cases hFin : c.finish_reason with
      | some r =>
        simp only [processChoices, if_neg hidx, hFin] at h ⊢
        rw [toolEvents_eq] at h ⊢
        injection h with h
        refine ⟨(processFragments s (c.delta.tool_calls.getD [])).1, r,
          textEvents c.delta.content ++
            (processFragments s (c.delta.tool_calls.getD [])).2,
          rfl, h.symm, ?_, ?_, choiceFrags c, choicesFrags cs, rfl, ?_⟩
        · intro e he
          rcases List.mem_append.1 he with h1 | h2
          · exact textEvents_stream _ e h1
          · exact processFragments_stream _ _ e h2
        · intro i
          rw [deltasFor_append, textEvents_deltas, String.empty_append,
            processFragments_buf]
        · rw [processFragments_keys, hcf]
      | none =>
        simp only [processChoices, if_neg hidx, hFin] at h ⊢
        rw [toolEvents_eq] at h ⊢
        obtain ⟨s1, r, evsS, hEq, hOut, hStream, hBuf, fr, rest2, hSplit,
          hKeys⟩ := ih _ o h
        refine ⟨s1, r,
          textEvents c.delta.content ++
            (processFragments s (c.delta.tool_calls.getD [])).2 ++ evsS,
          ?_, hOut, ?_, ?_, choiceFrags c ++ fr, rest2, ?_, ?_⟩
        · rw [hEq, List.append_assoc, List.append_assoc, List.append_assoc]
        · intro e he
          rcases List.mem_append.1 he with h12 | h3
          · rcases List.mem_append.1 h12 with h1 | h2
            · exact textEvents_stream _ e h1
            · exact processFragments_stream _ _ e h2
          · exact hStream e h3
        · intro i
          rw [deltasFor_append, deltasFor_append, textEvents_deltas,
            String.empty_append, hBuf i, processFragments_buf,
            String.append_assoc]
        · rw [show choicesFrags (c :: cs) = choiceFrags c ++ choicesFrags cs
            from rfl, hSplit, List.append_assoc]
        · rw [hKeys, processFragments_keys, firstArgOrder_append, hcf]

/-! ### Run-level lemmas -/

theorem firstArgOrder_notmem (i : Nat) :
    ∀ (l : List ToolCallDelta) (acc : List Nat), i ∉ acc →
      (∀ tc ∈ l, tc.index = i → fragHasArgs tc = false) →
      i ∉ firstArgOrder acc l := by
  intro l
  induction l with
  | nil => intro acc h _; exact h
  | cons tc rest ih =>
    intro acc h hfr
    rw [firstArgOrder]
    apply ih
    · split
      · next hcond =>
        intro hmem
        rcases List.mem_append.1 hmem with h1 | h2
        · exact h h1
        · have : tc.index = i := by
            have h3 : i = tc.index := by simpa using h2
            exact h3.symm
          have := hfr tc (List.mem_cons_self _ _) this
          rw [this] at hcond
          simp at hcond
      · exact h
    · exact fun tc2 h2 => hfr tc2 (List.mem_cons_of_mem _ h2)

theorem processChoices_clean_cont (parse : String → Option Json)
    (iter : List (Nat × String) → List (Nat × String)) :
    ∀ (cs : List ChunkChoice), (∀ ch ∈ cs, choiceClean ch = true) →
      ∀ (s : TCState), ∃ s1,
        (processChoices parse iter s cs).2 = .cont s1 := by
  intro cs
  induction cs with
  | nil => intro _ s; exact ⟨s, rfl⟩
  | cons c cs ih =>
    intro hcl s
    by_cases hidx : c.index ≠ 0
    · simp only [processChoices, if_pos hidx]
      exact ih (fun ch h => hcl ch (List.mem_cons_of_mem _ h)) s
    · have hc := hcl c (List.mem_cons_self _ _)
      rw [choiceClean] at hc
      have hz : (c.index == 0) = true := by
        simp only [ne_eq, not_not] at hidx
        simp [hidx]
      rw [hz] at hc
      simp only [Bool.not_true, Bool.false_or] at hc
      have hFin : c.finish_reason = none := by
        cases hf : c.finish_reason with
        | none => rfl
        | some r => rw [hf] at hc; simp at hc
      simp only [processChoices, if_neg hidx, hFin]
      exact ih (fun ch h => hcl ch (List.mem_cons_of_mem _ h)) _

theorem runChunks_complete (parse : String → Option Json)
    (iter : List (Nat × String) → List (Nat × String))
    (hiter : ∀ l, (iter l).Perm l) :
    ∀ (items : List ChunkItem) (s : TCState), (akeys s.toolArgs).Nodup →
      ∀ (i : Nat) (intent : GenericFunctionCallIntent),
        StreamEvent.toolCallComplete i intent ∈
          (runChunks parse iter s items).1 →
        parse (bufOf s i ++ deltasFor i (runChunks parse iter s items).1) =
          some intent.function.arguments := by
  intro items
  induction items with
  | nil =>
    intro s _ i intent h
    simp [runChunks] at h
  | cons it rest ih =>
    cases it with
    | fail =>
      intro s _ i intent h
      simp [runChunks] at h
    | ok c =>
      intro s hnd i intent h
      simp only [runChunks] at h ⊢
      cases hpc : (processChoices parse iter s c.choices).2 with
      | cont s1 =>
        simp only [hpc] at h ⊢
        obtain ⟨hS, hB, hK, _, _, _⟩ :=
          processChoices_cont parse iter c.choices s s1 hpc
        rcases List.mem_append.1 h with h1 | h2
        · have := hS _ h1
          simp [isStreamEvt] at this
        · have hnd1 : (akeys s1.toolArgs).Nodup := by
            rw [hK]; exact firstArgOrder_nodup _ _ hnd
          have hrec := ih s1 hnd1 i intent h2
          rw [deltasFor_append, ← String.append_assoc, ← hB i]
          exact hrec
      | stop o =>
        simp only [hpc] at h ⊢
        obtain ⟨s1, r, evsS, hEq, hOut, hStream, hBuf, fr, rest2, hSplit,
          hKeys⟩ := processChoices_stop parse iter c.choices s o hpc
        rw [hEq] at h ⊢
        rcases List.mem_append.1 h with h1 | h2
        · have := hStream _ h1
          simp [isStreamEvt] at this
        · obtain ⟨buf, hm, hpb⟩ :=
            finishEvents_complete parse iter s1 r i intent h2
          have hnd1 : (akeys s1.toolArgs).Nodup := by
            rw [hKeys]; exact firstArgOrder_nodup _ _ hnd
          have hmem : (i, buf) ∈ s1.toolArgs :=
            (hiter s1.toolArgs).mem_iff.1 hm
          have hlk : alookup s1.toolArgs i = some buf :=
            alookup_of_mem _ _ _ hnd1 hmem
          have hbuf1 : bufOf s1 i = buf := by rw [bufOf, hlk]; rfl
          rw [deltasFor_append, finishEvents_deltas, String.append_empty,
            ← hBuf i, hbuf1]
          exact hpb

theorem runChunks_counts (parse : String → Option Json)
    (iter : List (Nat × String) → List (Nat × String)) :
    ∀ (items : List ChunkItem), itemsClean items = true →
      ∀ (s : TCState) (j : Nat),
        countStarts j (runChunks parse iter s items).1 =
          (if anyIdFrag j (flatFrags items) = true ∧ hasIdSeen s j = false
           then 1 else 0) +
          (if anyNameFrag j (flatFrags items) = true ∧
              hasNameSeen s j = false
           then 1 else 0) := by
  intro items
  induction items with
  | nil =>
    intro _ s j
    simp [runChunks, countStarts, flatFrags, anyIdFrag, anyNameFrag]
  | cons it rest ih =>
    intro hcl s j
    cases it with
    | fail => simp [itemsClean, itemClean] at hcl
    | ok c =>
      rw [itemsClean, List.all_cons, Bool.and_eq_true] at hcl
      obtain ⟨hc1, hc2⟩ := hcl
      rw [itemClean, List.all_eq_true] at hc1
      obtain ⟨s1, hpc⟩ := processChoices_clean_cont parse iter c.choices hc1 s
      simp only [runChunks, hpc]
      obtain ⟨_, _, _, ihI, ihN, ihC⟩ :=
        processChoices_cont parse iter c.choices s s1 hpc
      rw [countStarts_append, ihC j, ih hc2 s1 j, ihI j, ihN j,
        show flatFrags (ChunkItem.ok c :: rest) =
          choicesFrags c.choices ++ flatFrags rest from rfl,
        anyIdFrag_append, anyNameFrag_append]
      exact count_split _ _ _ _ _ _

theorem runChunks_no_complete (parse : String → Option Json)
    (iter : List (Nat × String) → List (Nat × String))
    (hiter : ∀ l, (iter l).Perm l) (i : Nat) :
    ∀ (items : List ChunkItem) (s : TCState), i ∉ akeys s.toolArgs →
      (∀ tc ∈ flatFrags items, tc.index = i → fragHasArgs tc = false) →
      ∀ intent, StreamEvent.toolCallComplete i intent ∉
        (runChunks parse iter s items).1 := by
  intro items
  induction items with
  | nil =>
    intro s _ _ intent h
    simp [runChunks] at h
  | cons it rest ih =>
    cases it with
    | fail =>
      intro s _ _ intent h
      simp [runChunks] at h
    | ok c =>
      intro s hni hfr intent h
      simp only [runChunks] at h
      have hfrC : ∀ tc ∈ choicesFrags c.choices, tc.index = i →
          fragHasArgs tc = false := fun tc ht =>
        hfr tc (List.mem_append_left _ ht)
      have hfrR : ∀ tc ∈ flatFrags rest, tc.index = i →
          fragHasArgs tc = false := fun tc ht =>
        hfr tc (List.mem_append_right _ ht)
      cases hpc : (processChoices parse iter s c.choices).2 with
      | cont s1 =>
        simp only [hpc] at h
        obtain ⟨hS, _, hK, _, _, _⟩ :=
          processChoices_cont parse iter c.choices s s1 hpc
        rcases List.mem_append.1 h with h1 | h2
        · have := hS _ h1
          simp [isStreamEvt] at this
        · have hni1 : i ∉ akeys s1.toolArgs := by
            rw [hK]; exact firstArgOrder_notmem i _ _ hni hfrC
          exact ih s1 hni1 hfrR intent h2
      | stop o =>
        simp only [hpc] at h
        obtain ⟨s1, r, evsS, hEq, _, hStream, _, fr, rest2, hSplit,
          hKeys⟩ := processChoices_stop parse iter c.choices s o hpc
        rw [hEq] at h
        rcases List.mem_append.1 h with h1 | h2
        · have := hStream _ h1
          simp [isStreamEvt] at this
        · obtain ⟨buf, hm, _⟩ :=
            finishEvents_complete parse iter s1 r i intent h2
          have hmem : (i, buf) ∈ s1.toolArgs := (hiter _).mem_iff.1 hm
          have hin : i ∈ akeys s1.toolArgs :=
            List.mem_map_of_mem (fun kv => kv.1) hmem
          have hni1 : i ∉ akeys s1.toolArgs := by
            rw [hKeys]
            apply firstArgOrder_notmem i fr _ hni
            intro tc ht hti
            exact hfrC tc (by rw [hSplit]; exact List.mem_append_left _ ht)
              hti
          exact hni1 hin

theorem runChunks_done_last (parse : String → Option Json)
    (iter : List (Nat × String) → List (Nat × String)) :
    ∀ (items : List ChunkItem) (s : TCState),
      (runChunks parse iter s items).2 = .done →
      (runChunks parse iter s items).1.getLast? = some .messageEnd := by
  intro items
  induction items with
  | nil => intro s h; simp [runChunks] at h
  | cons it rest ih =>
    cases it with
    | fail => intro s h; simp [runChunks] at h
    | ok c =>
      intro s h
      simp only [runChunks] at h ⊢
      cases hpc : (processChoices parse iter s c.choices).2 with
      | cont s1 =>
        simp only [hpc] at h ⊢
        have hlast := ih s1 h
        have hne : (runChunks parse iter s1 rest).1 ≠ [] := by
          intro hnil; rw [hnil] at hlast; simp at hlast
        rw [List.getLast?_append_of_ne_nil _ hne]
        exact hlast
      | stop o =>
        simp only [hpc] at h ⊢
        obtain ⟨s1, r, evsS, hEq, hOut, _, _, _, _, _, _⟩ :=
          processChoices_stop parse iter c.choices s o hpc
        rcases finishEvents_outcome parse iter s1 r with ⟨h1, h2⟩ | h1
        · rw [hEq]
          have hne : (finishEvents parse iter s1 r).1 ≠ [] := by
            intro hnil; rw [hnil] at h2; simp at h2
          rw [List.getLast?_append_of_ne_nil _ hne]
          exact h2
        · have hcontra := (h.symm.trans hOut).trans h1
          cases hcontra

theorem processChoices_ends (parse : String → Option Json)
    (iter : List (Nat × String) → List (Nat × String)) :
    ∀ (cs : List ChunkChoice),
      cs.any (fun ch => ch.index == 0 && ch.finish_reason.isSome) = true →
      ∀ (s : TCState), ∃ o, (processChoices parse iter s cs).2 = .stop o := by
  intro cs
  induction cs with
  | nil => intro h; simp at h
  | cons c cs ih =>
    intro h s
    rw [List.any_cons, Bool.or_eq_true] at h
    by_cases hidx : c.index ≠ 0
    · simp only [processChoices, if_pos hidx]
      apply ih _ s
      rcases h with h1 | h2
      · exfalso
        rw [Bool.and_eq_true] at h1
        have : c.index = 0 := by simpa using h1.1
        exact hidx this
      · exact h2
    · cases hFin : c.finish_reason with
      | some r =>
        simp only [processChoices, if_neg hidx, hFin]
        exact ⟨_, rfl⟩
      | none =>
        simp only [processChoices, if_neg hidx, hFin]
        apply ih _ _
        rcases h with h1 | h2
        · rw [Bool.and_eq_true, hFin] at h1
          simp at h1
        · exact h2

theorem runChunks_not_trunc (parse : String → Option Json)
    (iter : List (Nat × String) → List (Nat × String)) :
    ∀ (items : List ChunkItem) (s : TCState), items.any itemEnds = true →
      (runChunks parse iter s items).2 ≠ .truncated := by
  intro items
  induction items with
  | nil => intro s h; simp at h
  | cons it rest ih =>
    intro s h
    cases it with
    | fail => simp [runChunks]
    | ok c =>
      rw [List.any_cons, Bool.or_eq_true] at h
      simp only [runChunks]
      cases hpc : (processChoices parse iter s c.choices).2 with
      | cont s1 =>
        simp only [hpc]
        rcases h with h1 | h2
        · exfalso
          rw [itemEnds] at h1
          obtain ⟨o, ho⟩ := processChoices_ends parse iter c.choices h1 s
          rw [hpc] at ho
          cases ho
        · exact ih s1 h2
      | stop o =>
        simp only [hpc]
        obtain ⟨s1, r, _, _, hOut, _, _, _, _, _, _⟩ :=
          processChoices_stop parse iter c.choices s o hpc
        rcases finishEvents_outcome parse iter s1 r with ⟨h1, _⟩ | h1
        · rw [hOut, h1]; simp
        · rw [hOut, h1]; simp

theorem processChoices_finChunk (parse : String → Option Json)
    (iter : List (Nat × String) → List (Nat × String)) (s : TCState) :
    processChoices parse iter s (mkFinChunk .toolCalls).choices =
      ((finishEvents parse iter s .toolCalls).1,
        .stop (finishEvents parse iter s .toolCalls).2) := by
  simp [processChoices, mkFinChunk, textEvents, toolEvents]

theorem runChunks_fin (parse : String → Option Json)
    (iter : List (Nat × String) → List (Nat × String))
    (hiter : ∀ l, (iter l).Perm l)
    (hparse : ∀ t, (parse t).isSome = true) :
    ∀ (pre : List ChunkItem), itemsClean pre = true →
      ∀ (s : TCState),
        (runChunks parse iter s
          (pre ++ [ChunkItem.ok (mkFinChunk .toolCalls)])).2 = .done ∧
        (completesIdx (runChunks parse iter s
          (pre ++ [ChunkItem.ok (mkFinChunk .toolCalls)])).1).Perm
            (firstArgOrder (akeys s.toolArgs) (flatFrags pre)) ∧
        (runChunks parse iter s
          (pre ++ [ChunkItem.ok (mkFinChunk .toolCalls)])).1.getLast? =
            some .messageEnd := by
  intro pre
  induction pre with
  | nil =>
    intro _ s
    rw [List.nil_append]
    simp only [runChunks, processChoices_finChunk]
    have hall : ∀ kv ∈ iter s.toolArgs, (parse kv.2).isSome = true :=
      fun kv _ => hparse kv.2
    obtain ⟨hC, hD⟩ := completeLoop_all_ok parse s.toolSeen
      (iter s.toolArgs) hall
    have hfe : finishEvents parse iter s .toolCalls =
        completeLoop parse (iter s.toolArgs) s.toolSeen := rfl
    refine ⟨by rw [hfe]; exact hD, ?_, ?_⟩
    · rw [hfe, hC]
      have hp : ((iter s.toolArgs).map (fun kv => kv.1)).Perm
          (s.toolArgs.map (fun kv => kv.1)) := (hiter _).map _
      simpa [firstArgOrder, akeys, flatFrags] using hp
    · rcases completeLoop_outcome parse s.toolSeen (iter s.toolArgs) with
        ⟨_, h2⟩ | h1
      · rw [hfe]; exact h2
      · have := h1.symm.trans hD
        cases this
  | cons it pre ih =>
    intro hcl s
    cases it with
    | fail => simp [itemsClean, itemClean] at hcl
    | ok c =>
      rw [itemsClean, List.all_cons, Bool.and_eq_true] at hcl
      obtain ⟨hc1, hc2⟩ := hcl
      rw [itemClean, List.all_eq_true] at hc1
      obtain ⟨s1, hpc⟩ := processChoices_clean_cont parse iter c.choices hc1 s
      rw [List.cons_append]
      simp only [runChunks, hpc]
      obtain ⟨hS, _, hK, _, _, _⟩ :=
        processChoices_cont parse iter c.choices s s1 hpc
      obtain ⟨ihD, ihP, ihL⟩ := ih hc2 s1
      refine ⟨ihD, ?_, ?_⟩
      · rw [completesIdx_append, completesIdx_of_stream _ hS,
          List.nil_append,
          show flatFrags (ChunkItem.ok c :: pre) =
            choicesFrags c.choices ++ flatFrags pre from rfl,
          firstArgOrder_append, ← hK]
        exact ihP
      · have hne : (runChunks parse iter s1
            (pre ++ [ChunkItem.ok (mkFinChunk .toolCalls)])).1 ≠ [] := by
          intro hnil; rw [hnil] at ihL; simp at ihL
        rw [List.getLast?_append_of_ne_nil _ hne]
        exact ihL

/-! ### C8: argument round-trip -/

/-- C8: for every input and every tool-call index that receives a
`ToolCallComplete`, parsing the concatenation (in emission order) of all
`ToolCallArgumentsDelta` fragments for that index yields exactly the
parsed arguments carried in that index's `ToolCallComplete`.  `iter` is
the `HashMap` iteration order (any permutation), `parse` the external
JSON parser. -/
theorem roundtrip_arguments (parse : String → Option Json)
    (iter : List (Nat × String) → List (Nat × String))
    (hiter : ∀ l, (iter l).Perm l) (items : List ChunkItem) (i : Nat)
    (intent : GenericFunctionCallIntent)
    (h : StreamEvent.toolCallComplete i intent ∈
      (chat_complete_events_stream parse iter items).1) :
    parse (deltasFor i (chat_complete_events_stream parse iter items).1) =
      some intent.function.arguments := by
  have hres := runChunks_complete parse iter hiter items initTCState
    (by simp [initTCState, akeys]) i intent h
  have hbuf : bufOf initTCState i = "" := rfl
  rw [hbuf, String.empty_append] at hres
  exact hres

theorem roundtrip_arguments_witness :
    (∀ l : List (Nat × String), (id l).Perm l) ∧
    StreamEvent.toolCallComplete 0 intentC8 ∈
      (chat_complete_events_stream parseObj id itemsC8).1 ∧
    parseObj
        (deltasFor 0 (chat_complete_events_stream parseObj id itemsC8).1) =
      some intentC8.function.arguments := by
  have hperm : ∀ l : List (Nat × String), (id l).Perm l :=
    fun l => List.Perm.refl l
  have hmem : StreamEvent.toolCallComplete 0 intentC8 ∈
      (chat_complete_events_stream parseObj id itemsC8).1 := by
    have hevs : (chat_complete_events_stream parseObj id itemsC8).1 =
        [StreamEvent.toolCallStart 0 (some "a") none,
         StreamEvent.toolCallStart 0 (some "a") (some "f"),
         StreamEvent.toolCallArgumentsDelta 0 "\x7b\x7d",
         StreamEvent.toolCallComplete 0 intentC8,
         StreamEvent.messageEnd] := by rfl
    rw [hevs]
    simp
  exact ⟨hperm, hmem,
    roundtrip_arguments parseObj id hperm itemsC8 0 intentC8 hmem⟩

/-! ### C9: id and name each trigger one start, independently -/

/-- C9: over any fully-processed input (no upstream error and no finish
reason, so every fragment is interpreted), the number of
`ToolCallStart` events for an index is exactly one per trigger: one if
any fragment supplies an id for it, plus one if any fragment supplies a
function name for it.  Re-supplying an id or name never re-emits. -/
theorem start_emission_once (parse : String → Option Json)
    (iter : List (Nat × String) → List (Nat × String))
    (items : List ChunkItem) (i : Nat)
    (hclean : itemsClean items = true) :
    countStarts i (chat_complete_events_stream parse iter items).1 =
      (if anyIdFrag i (flatFrags items) = true then 1 else 0) +
      (if anyNameFrag i (flatFrags items) = true then 1 else 0) := by
  have hres := runChunks_counts parse iter items hclean initTCState i
  have h1 : hasIdSeen initTCState i = false := rfl
  have h2 : hasNameSeen initTCState i = false := rfl
  rw [h1, h2] at hres
  simpa using hres

theorem start_emission_once_witness :
    itemsClean itemsC9 = true ∧
    countStarts 0 (chat_complete_events_stream parseAny id itemsC9).1 =
      (if anyIdFrag 0 (flatFrags itemsC9) = true then 1 else 0) +
      (if anyNameFrag 0 (flatFrags itemsC9) = true then 1 else 0) :=
  ⟨by decide, start_emission_once parseAny id itemsC9 0 (by decide)⟩

/-! ### C10: completion only for indices with an argument buffer -/

/-- C10: a `ToolCallComplete` is only ever produced for an index whose
accumulator received at least one `function.arguments` fragment —
completion iterates the argument-buffer map only.  In particular (second
conjunct, evaluated on a concrete run) an index whose id was seen emits
a `ToolCallStart`, but at tool-calls finish it gets no
`ToolCallComplete`, only `MessageEnd`. -/
theorem no_args_no_complete (parse : String → Option Json)
    (iter : List (Nat × String) → List (Nat × String))
    (hiter : ∀ l, (iter l).Perm l) (items : List ChunkItem) (i : Nat)
    (hno : ∀ tc ∈ flatFrags items, tc.index = i → fragHasArgs tc = false) :
    (∀ intent, StreamEvent.toolCallComplete i intent ∉
      (chat_complete_events_stream parse iter items).1) ∧
    (chat_complete_events_stream parseAny id itemsC10).1 =
      [StreamEvent.toolCallStart 2 (some "a") none,
       StreamEvent.messageEnd] := by
  constructor
  · exact fun intent => runChunks_no_complete parse iter hiter i items
      initTCState (by simp [initTCState, akeys]) hno intent
  · rfl

theorem no_args_no_complete_witness :
    (∀ l : List (Nat × String), (id l).Perm l) ∧
    (∀ tc ∈ flatFrags itemsC10, tc.index = 2 → fragHasArgs tc = false) ∧
    ((∀ intent, StreamEvent.toolCallComplete 2 intent ∉
        (chat_complete_events_stream parseAny id itemsC10).1) ∧
      (chat_complete_events_stream parseAny id itemsC10).1 =
        [StreamEvent.toolCallStart 2 (some "a") none,
         StreamEvent.messageEnd]) := by
  have hperm : ∀ l : List (Nat × String), (id l).Perm l :=
    fun l => List.Perm.refl l
  have hno : ∀ tc ∈ flatFrags itemsC10, tc.index = 2 →
      fragHasArgs tc = false := by decide
  exact ⟨hperm, hno,
    no_args_no_complete parseAny id hperm itemsC10 2 hno⟩

/-! ### C1: completion emission at the tool-calls finish -/

/-- C1 counterexample: the finalization loop iterates a
`std::collections::HashMap`, whose iteration order is unspecified — it
is not the insertion order.  `List.reverse` is an admissible iteration
order (it permutes the entries); under it, the run on an input whose
indices were first seen in the order 0, 1 emits the `ToolCallComplete`
events in the order 1, 0 — not the insertion order 0, 1 the claim
states. -/
theorem toolcalls_insertion_order_counterexample :
    (∀ l : List (Nat × String), (List.reverse l).Perm l) ∧
    firstArgOrder [] (flatFrags itemsC1) = [0, 1] ∧
    completesIdx
        (chat_complete_events_stream parseAny List.reverse itemsC1).1 =
      [1, 0] ∧
    ([1, 0] : List Nat) ≠ [0, 1] :=
  ⟨fun l => l.reverse_perm, by decide, rfl, by decide⟩

/-- C1 (amended): when a chunk carries the terminal reason tool-calls
and every accumulated argument buffer parses, the interpreter emits
exactly one `ToolCallComplete` for every index accumulated in the
argument-buffer map — in the map's unspecified iteration order, a
permutation of the order the indices were first seen (not necessarily
that order, nor numeric order) — and afterwards `MessageEnd`, which
ends the sequence. -/
theorem toolcalls_completion (parse : String → Option Json)
    (iter : List (Nat × String) → List (Nat × String))
    (hiter : ∀ l, (iter l).Perm l)
    (hparse : ∀ t, (parse t).isSome = true)
    (pre : List ChunkItem) (hclean : itemsClean pre = true) :
    (chat_complete_events_stream parse iter
      (pre ++ [ChunkItem.ok (mkFinChunk .toolCalls)])).2 = .done ∧
    (completesIdx (chat_complete_events_stream parse iter
      (pre ++ [ChunkItem.ok (mkFinChunk .toolCalls)])).1).Perm
        (firstArgOrder [] (flatFrags pre)) ∧
    (chat_complete_events_stream parse iter
      (pre ++ [ChunkItem.ok (mkFinChunk .toolCalls)])).1.getLast? =
      some .messageEnd := by
  have hres := runChunks_fin parse iter hiter hparse pre hclean initTCState
  simpa [chat_complete_events_stream, initTCState, akeys] using hres

theorem toolcalls_completion_witness :
    (∀ l : List (Nat × String), (id l).Perm l) ∧
    (∀ t, (parseAny t).isSome = true) ∧
    itemsClean preC1 = true ∧
    ((chat_complete_events_stream parseAny id
      (preC1 ++ [ChunkItem.ok (mkFinChunk .toolCalls)])).2 = .done ∧
    (completesIdx (chat_complete_events_stream parseAny id
      (preC1 ++ [ChunkItem.ok (mkFinChunk .toolCalls)])).1).Perm
        (firstArgOrder [] (flatFrags preC1)) ∧
    (chat_complete_events_stream parseAny id
      (preC1 ++ [ChunkItem.ok (mkFinChunk .toolCalls)])).1.getLast? =
      some .messageEnd) :=
  ⟨fun l => List.Perm.refl l, fun t => rfl, by decide,
    toolcalls_completion parseAny id (fun l => List.Perm.refl l)
      (fun t => rfl) preC1 (by decide)⟩

/-! ### C2: how the event sequence ends -/

/-- C2 counterexample: a response byte stream that ends without a
terminal-reason chunk — here, the empty byte stream — produces an event
sequence that ends with neither a `MessageEnd` nor an error: the
generator's `while` loop simply falls through and the stream ends
silently.  This refutes the claim for such inputs. -/
theorem stream_termination_counterexample :
    fullStream parseAny id (fun _ => none) [] = ([], Outcome.truncated) ∧
    Outcome.truncated ≠ Outcome.done ∧
    Outcome.truncated ≠ Outcome.errored :=
  ⟨rfl, by decide, by decide⟩

/-- C2 (amended): whenever the upstream chunk stream contains an error
item or a chunk bearing a finish reason on a choice of index 0, the
event sequence does end with either a successful `MessageEnd`
termination or a terminal error — and whenever it ends successfully,
`MessageEnd` is its last event.  (When the upstream ends without either,
the sequence ends silently, as the counterexample shows.) -/
theorem stream_termination (parse : String → Option Json)
    (iter : List (Nat × String) → List (Nat × String))
    (items : List ChunkItem) (h : items.any itemEnds = true) :
    (chat_complete_events_stream parse iter items).2 ≠ .truncated ∧
    ((chat_complete_events_stream parse iter items).2 = .done →
      (chat_complete_events_stream parse iter items).1.getLast? =
        some .messageEnd) :=
  ⟨runChunks_not_trunc parse iter items initTCState h,
    runChunks_done_last parse iter items initTCState⟩

theorem stream_termination_witness :
    ([ChunkItem.ok (mkFinChunk .stop)] : List ChunkItem).any itemEnds =
      true ∧
    ((chat_complete_events_stream parseAny id
        [ChunkItem.ok (mkFinChunk .stop)]).2 ≠ .truncated ∧
      ((chat_complete_events_stream parseAny id
          [ChunkItem.ok (mkFinChunk .stop)]).2 = .done →
        (chat_complete_events_stream parseAny id
          [ChunkItem.ok (mkFinChunk .stop)]).1.getLast? =
          some .messageEnd)) :=
  ⟨by decide, stream_termination parseAny id
    [ChunkItem.ok (mkFinChunk .stop)] (by decide)⟩

/-! ### Ordering-monitor lemmas (for C3) -/

theorem isEndB_of_stream (e : StreamEvent) (h : isStreamEvt e = true) :
    isEndB e = false := by
  cases e <;> first | rfl | simp [isStreamEvt] at h

theorem chkStep_cp_stream (p : List Nat × List Nat) (e : StreamEvent)
    (h : isStreamEvt e = true) : (chkStep p e).2 = p.2 := by
  obtain ⟨st, cp⟩ := p
  cases e <;> first | rfl | simp [isStreamEvt] at h

theorem foldl_chkStep_cp (l : List StreamEvent) :
    ∀ (p : List Nat × List Nat), (∀ e ∈ l, isStreamEvt e = true) →
      (l.foldl chkStep p).2 = p.2 := by
  induction l with
  | nil => intro p _; rfl
  | cons e t ih =>
    intro p h
    rw [List.foldl_cons, ih _ (fun x hx => h x (List.mem_cons_of_mem _ hx)),
      chkStep_cp_stream p e (h e (List.mem_cons_self _ _))]

theorem chkStep_contains_mono (p : List Nat × List Nat) (e : StreamEvent)
    (i : Nat) (h : p.1.contains i = true) :
    (chkStep p e).1.contains i = true := by
  obtain ⟨st, cp⟩ := p
  cases e <;> simp [chkStep] at h ⊢ <;> simp [h]

theorem foldl_chkStep_contains_mono (l : List StreamEvent) :
    ∀ (p : List Nat × List Nat) (i : Nat), p.1.contains i = true →
      (l.foldl chkStep p).1.contains i = true := by
  induction l with
  | nil => intro p i h; exact h
  | cons e t ih =>
    intro p i h
    rw [List.foldl_cons]
    exact ih _ i (chkStep_contains_mono p e i h)

theorem start_mem_foldl_contains (l : List StreamEvent) :
    ∀ (p : List Nat × List Nat) (i : Nat) (a : Option String)
      (b : Option String), StreamEvent.toolCallStart i a b ∈ l →
      (l.foldl chkStep p).1.contains i = true := by
  induction l with
  | nil => intro p i a b h; simp at h
  | cons e t ih =>
    intro p i a b h
    rw [List.foldl_cons]
    rcases List.mem_cons.1 h with he | ht
    · subst he
      apply foldl_chkStep_contains_mono
      obtain ⟨st, cp⟩ := p
      simp [chkStep]
    · exact ih _ i a b ht

theorem chk_append (b : List StreamEvent) :
    ∀ (a : List StreamEvent) (p : List Nat × List Nat),
      (∀ e ∈ a, isEndB e = false) →
      chk p (a ++ b) = (chk p a && chk (a.foldl chkStep p) b) := by
  intro a
  induction a with
  | nil => intro p _; simp [chk]
  | cons e t ih =>
    intro p h
    have he := h e (List.mem_cons_self _ _)
    have ht := fun x hx => h x (List.mem_cons_of_mem _ hx)
    rw [List.cons_append, List.foldl_cons]
    cases e <;> simp [isEndB] at he ⊢ <;>
      simp [chk, ih _ ht, Bool.and_assoc]

theorem chk_of_stream_no_delta (l : List StreamEvent)
    (h : ∀ e ∈ l, isStreamEvt e = true)
    (hd : ∀ i f, StreamEvent.toolCallArgumentsDelta i f ∉ l) :
    ∀ p, chk p l = true := by
  induction l with
  | nil => intro p; rfl
  | cons e t ih =>
    intro p
    have he := h e (List.mem_cons_self _ _)
    have ht := fun x hx => h x (List.mem_cons_of_mem _ hx)
    have htd : ∀ i f, StreamEvent.toolCallArgumentsDelta i f ∉ t :=
      fun i f hm => hd i f (List.mem_cons_of_mem _ hm)
    obtain ⟨st, cp⟩ := p
    cases e with
    | toolCallArgumentsDelta i f =>
      exact absurd (List.mem_cons_self _ _) (hd i f)
    | messageEnd => simp [isStreamEvt] at he
    | toolCallComplete i intent => simp [isStreamEvt] at he
    | textDelta s => simpa [chk, chkOk, chkStep] using ih ht htd (st, cp)
    | toolCallStart i a b =>
      simpa [chk, chkOk, chkStep] using ih ht htd (i :: st, cp)
    | usage a b c => simpa [chk, chkOk, chkStep] using ih ht htd (st, cp)

theorem chk_single_delta (p : List Nat × List Nat) (i : Nat) (f : String) :
    chk p [StreamEvent.toolCallArgumentsDelta i f] =
      (p.1.contains i && !(p.2.contains i)) := by
  obtain ⟨st, cp⟩ := p
  simp [chk, chkOk]

theorem seenHasId_false_iff
    (seen : List (Nat × (Option String × Option String))) (i : Nat) :
    seenHasId seen i = false ↔
      ((alookup seen i).getD (none, none)).1 = none := by
  rw [seenHasId]
  cases h : alookup seen i with
  | none => simp
  | some e => cases e with | mk a b => cases a <;> simp

theorem seenHasName_false_iff
    (seen : List (Nat × (Option String × Option String))) (i : Nat) :
    seenHasName seen i = false ↔
      ((alookup seen i).getD (none, none)).2 = none := by
  rw [seenHasName]
  cases h : alookup seen i with
  | none => simp
  | some e => cases e with | mk a b => cases b <;> simp

theorem stepId_no_delta (i : Nat) (idOpt : Option String)
    (seen : List (Nat × (Option String × Option String))) :
    ∀ (j : Nat) (f : String),
      StreamEvent.toolCallArgumentsDelta j f ∉ (stepId i idOpt seen).2 := by
  cases idOpt with
  | none => intro j f h; simp [stepId] at h
  | some id =>
    intro j f h
    rw [stepId_some] at h
    revert h
    split <;> simp

theorem stepName_no_delta (i : Nat) (nameOpt : Option String)
    (seen : List (Nat × (Option String × Option String))) :
    ∀ (j : Nat) (f : String),
      StreamEvent.toolCallArgumentsDelta j f ∉
        (stepName i nameOpt seen).2 := by
  cases nameOpt with
  | none => intro j f h; simp [stepName] at h
  | some nm =>
    intro j f h
    rw [stepName_some] at h
    revert h
    split <;> simp

theorem stepId_start_mem (i : Nat) (id : String)
    (seen : List (Nat × (Option String × Option String)))
    (h : seenHasId seen i = false) :
    ∃ a b, StreamEvent.toolCallStart i a b ∈ (stepId i (some id) seen).2 := by
  rw [stepId_some, if_pos ((seenHasId_false_iff seen i).1 h)]
  exact ⟨some id, ((alookup seen i).getD (none, none)).2, by simp⟩

theorem stepName_start_mem (i : Nat) (nm : String)
    (seen : List (Nat × (Option String × Option String)))
    (h : seenHasName seen i = false) :
    ∃ a b, StreamEvent.toolCallStart i a b ∈
      (stepName i (some nm) seen).2 := by
  rw [stepName_some, if_pos ((seenHasName_false_iff seen i).1 h)]
  exact ⟨((alookup seen i).getD (none, none)).1, some nm, by simp⟩

theorem processFragment_start_mem_id (s : TCState) (tc : ToolCallDelta)
    (hid : tc.id.isSome = true) (hfresh : hasIdSeen s tc.index = false) :
    ∃ a b, StreamEvent.toolCallStart tc.index a b ∈
      (processFragment s tc).2 := by
  obtain ⟨id, hid2⟩ := Option.isSome_iff_exists.1 hid
  have hfresh0 :
      seenHasId (orInsertSeen s.toolSeen tc.index) tc.index = false := by
    rw [orInsertSeen_hasId]; exact hfresh
  obtain ⟨a, b, hm⟩ := stepId_start_mem tc.index id _ hfresh0
  cases hf : tc.function with
  | none =>
    refine ⟨a, b, ?_⟩
    simp only [processFragment, hf, hid2]
    exact hm
  | some f =>
    refine ⟨a, b, ?_⟩
    simp only [processFragment, hf, hid2]
    exact List.mem_append_left _ (List.mem_append_left _ hm)

theorem processFragment_start_mem_name (s : TCState) (tc : ToolCallDelta)
    (hnm : fragHasName tc = true)
    (hfresh : hasNameSeen s tc.index = false) :
    ∃ a b, StreamEvent.toolCallStart tc.index a b ∈
      (processFragment s tc).2 := by
  cases hf : tc.function with
  | none => rw [fragHasName, hf] at hnm; simp at hnm
  | some f =>
    have hn : ∃ nm, f.name = some nm := by
      rw [fragHasName, hf] at hnm
      exact Option.isSome_iff_exists.1 hnm
    obtain ⟨nm, hnm2⟩ := hn
    have hfresh1 : seenHasName
        (stepId tc.index tc.id (orInsertSeen s.toolSeen tc.index)).1
        tc.index = false := by
      rw [seenHasName_stepId, orInsertSeen_hasName]; exact hfresh
    obtain ⟨a, b, hm⟩ := stepName_start_mem tc.index nm _ hfresh1
    refine ⟨a, b, ?_⟩
    simp only [processFragment, hf, hnm2]
    exact List.mem_append_left _ (List.mem_append_right _ hm)

theorem chk_processFragment (s : TCState) (tc : ToolCallDelta)
    (p : List Nat × List Nat) (hcp : p.2 = [])
    (hstart : ∀ i, (hasIdSeen s i || hasNameSeen s i) = true →
      p.1.contains i = true)
    (hargs : fragHasArgs tc = true →
      (hasIdSeen s tc.index || (hasNameSeen s tc.index ||
        fragHasIdName tc)) = true) :
    chk p (processFragment s tc).2 = true := by
  cases hf : tc.function with
  | none =>
    simp only [processFragment, hf]
    exact chk_of_stream_no_delta _ (isStreamEvt_stepId _ _ _)
      (stepId_no_delta _ _ _) p
  | some f =>
    simp only [processFragment, hf]
    have hstream12 : ∀ e ∈
        (stepId tc.index tc.id (orInsertSeen s.toolSeen tc.index)).2 ++
        (stepName tc.index f.name
          (stepId tc.index tc.id (orInsertSeen s.toolSeen tc.index)).1).2,
        isStreamEvt e = true := by
      intro e he
      rcases List.mem_append.1 he with h1 | h2
      · exact isStreamEvt_stepId _ _ _ e h1
      · exact isStreamEvt_stepName _ _ _ e h2
    rw [chk_append _ _ p (fun e he => isEndB_of_stream e (hstream12 e he)),
      Bool.and_eq_true]
    constructor
    · refine chk_of_stream_no_delta _ hstream12 ?_ p
      intro j g hm
      rcases List.mem_append.1 hm with h1 | h2
      · exact stepId_no_delta _ _ _ j g h1
      · exact stepName_no_delta _ _ _ j g h2
    · cases ha : f.arguments with
      | none => simp [stepArgs, chk]
      | some args =>
        by_cases hae : args = ""
        · simp [stepArgs, ha, hae, chk]
        · have hr32 : (stepArgs tc.index (some args) s.toolArgs).2 =
              [StreamEvent.toolCallArgumentsDelta tc.index args] := by
            simp [stepArgs, hae]
          rw [hr32, chk_single_delta, Bool.and_eq_true]
          constructor
          · -- the monitor has started this index
            have hargsT : fragHasArgs tc = true := by
              simp [fragHasArgs, hf, ha]
            have hdisj := hargs hargsT
            by_cases h1 : hasIdSeen s tc.index = true
            · exact foldl_chkStep_contains_mono _ p _
                (hstart _ (by simp [h1]))
            · by_cases h2 : hasNameSeen s tc.index = true
              · exact foldl_chkStep_contains_mono _ p _
                  (hstart _ (by simp [h2]))
              · rw [Bool.not_eq_true] at h1 h2
                rw [h1, h2, Bool.false_or, Bool.false_or] at hdisj
                rw [fragHasIdName, Bool.or_eq_true] at hdisj
                rcases hdisj with h4 | h5
                · obtain ⟨id, hid2⟩ := Option.isSome_iff_exists.1 h4
                  have hfresh0 : seenHasId
                      (orInsertSeen s.toolSeen tc.index) tc.index = false := by
                    rw [orInsertSeen_hasId]; exact h1
                  obtain ⟨a, b, hm⟩ := stepId_start_mem tc.index id _ hfresh0
                  apply start_mem_foldl_contains _ p tc.index a b
                  rw [hid2]
                  exact List.mem_append_left _ hm
                · cases hn : f.name with
                  | none => simp [fragHasName, hf, hn] at h5
                  | some nm =>
                    have hfresh1 : seenHasName
                        (stepId tc.index tc.id
                          (orInsertSeen s.toolSeen tc.index)).1
                        tc.index = false := by
                      rw [seenHasName_stepId, orInsertSeen_hasName]
                      exact h2
                    obtain ⟨a, b, hm⟩ :=
                      stepName_start_mem tc.index nm _ hfresh1
                    apply start_mem_foldl_contains _ p tc.index a b
                    exact List.mem_append_right _ hm
          · -- no complete has been emitted yet
            rw [foldl_chkStep_cp _ p hstream12, hcp]
            simp

theorem processFragment_foldl_cp (s : TCState) (tc : ToolCallDelta)
    (p : List Nat × List Nat) (hcp : p.2 = []) :
    (((processFragment s tc).2).foldl chkStep p).2 = [] := by
  rw [foldl_chkStep_cp _ p (processFragment_stream s tc), hcp]

theorem processFragment_foldl_contains (s : TCState) (tc : ToolCallDelta)
    (p : List Nat × List Nat)
    (hstart : ∀ i, (hasIdSeen s i || hasNameSeen s i) = true →
      p.1.contains i = true) :
    ∀ i, (hasIdSeen (processFragment s tc).1 i ||
        hasNameSeen (processFragment s tc).1 i) = true →
      (((processFragment s tc).2).foldl chkStep p).1.contains i = true := by
  intro i hi
  rw [processFragment_hasId, processFragment_hasName] at hi
  by_cases hbase : (hasIdSeen s i || hasNameSeen s i) = true
  · exact foldl_chkStep_contains_mono _ p i (hstart i hbase)
  · have hIdF : hasIdSeen s i = false := by
      cases h : hasIdSeen s i
      · rfl
      · exact absurd (by simp [h]) hbase
    have hNmF : hasNameSeen s i = false := by
      cases h : hasNameSeen s i
      · rfl
      · exact absurd (by simp [h]) hbase
    rw [hIdF, hNmF, Bool.false_or, Bool.false_or, Bool.or_eq_true,
      Bool.and_eq_true, Bool.and_eq_true] at hi
    rcases hi with ⟨hbi, hsome⟩ | ⟨hbi, hsome⟩
    · have hii : tc.index = i := by simpa using hbi
      subst hii
      obtain ⟨a, b, hm⟩ := processFragment_start_mem_id s tc hsome hIdF
      exact start_mem_foldl_contains _ p tc.index a b hm
    · have hii : tc.index = i := by simpa using hbi
      subst hii
      obtain ⟨a, b, hm⟩ := processFragment_start_mem_name s tc hsome hNmF
      exact start_mem_foldl_contains _ p tc.index a b hm

theorem chk_processFragments (l : List ToolCallDelta) :
    ∀ (s : TCState) (p : List Nat × List Nat) (ok : List Nat),
      p.2 = [] →
      (∀ i, (hasIdSeen s i || hasNameSeen s i) = true →
        p.1.contains i = true) →
      (∀ i, ok.contains i = true →
        (hasIdSeen s i || hasNameSeen s i) = true) →
      wfFrags ok l = true →
      chk p (processFragments s l).2 = true ∧
      (((processFragments s l).2).foldl chkStep p).2 = [] ∧
      (∀ i, (hasIdSeen (processFragments s l).1 i ||
          hasNameSeen (processFragments s l).1 i) = true →
        (((processFragments s l).2).foldl chkStep p).1.contains i = true) ∧
      (∀ i, (l.foldl okStep ok).contains i = true →
        (hasIdSeen (processFragments s l).1 i ||
          hasNameSeen (processFragments s l).1 i) = true) := by
  induction l with
  | nil =>
    intro s p ok hcp hst hok _
    simp only [processFragments, List.foldl_nil]
    exact ⟨rfl, hcp, hst, hok⟩
  | cons tc rest ih =>
    intro s p ok hcp hst hok hwf
    rw [wfFrags, Bool.and_eq_true] at hwf
    obtain ⟨hargsOk, hwfR⟩ := hwf
    have hargs : fragHasArgs tc = true →
        (hasIdSeen s tc.index || (hasNameSeen s tc.index ||
          fragHasIdName tc)) = true := by
      intro hA
      rw [hA] at hargsOk
      simp only [Bool.not_true, Bool.false_or, Bool.or_eq_true] at hargsOk
      rcases hargsOk with hctn | hidn
      · have hh := hok tc.index hctn
        rw [Bool.or_eq_true] at hh
        rcases hh with h | h
        · simp [h]
        · simp [h]
      · simp [hidn]
    have hchk := chk_processFragment s tc p hcp hst hargs
    have hcp1 := processFragment_foldl_cp s tc p hcp
    have hcont1 := processFragment_foldl_contains s tc p hst
    have hhId := fun j => processFragment_hasId s tc j
    have hhNm := fun j => processFragment_hasName s tc j
    have hok1 : ∀ i, (okStep ok tc).contains i = true →
        (hasIdSeen (processFragment s tc).1 i ||
          hasNameSeen (processFragment s tc).1 i) = true := by
      intro i hc
      rw [okStep] at hc
      rw [hhId i, hhNm i]
      by_cases hidn : fragHasIdName tc = true
      · rw [if_pos hidn] at hc
        simp only [List.contains_cons, Bool.or_eq_true, beq_iff_eq] at hc
        rcases hc with hc | hc
        · subst hc
          have h2 := hidn
          rw [fragHasIdName, Bool.or_eq_true] at h2
          rcases h2 with h3 | h3
          · simp [h3]
          · simp [h3]
        · have hh := hok i hc
          rw [Bool.or_eq_true] at hh
          rcases hh with h | h
          · simp [h]
          · simp [h]
      · rw [if_neg hidn] at hc
        have hh := hok i hc
        rw [Bool.or_eq_true] at hh
        rcases hh with h | h
        · simp [h]
        · simp [h]
    obtain ⟨ih1, ih2, ih3, ih4⟩ := ih (processFragment s tc).1
      (((processFragment s tc).2).foldl chkStep p) (okStep ok tc)
      hcp1 hcont1 hok1 hwfR
    simp only [processFragments]
    refine ⟨?_, ?_, ?_, ?_⟩
    · rw [chk_append _ _ p
        (fun e he => isEndB_of_stream e (processFragment_stream s tc e he)),
        Bool.and_eq_true]
      exact ⟨hchk, ih1⟩
    · rw [List.foldl_append]
      exact ih2
    · intro i hi
      rw [List.foldl_append]
      exact ih3 i hi
    · intro i hc
      rw [List.foldl_cons] at hc
      exact ih4 i hc

theorem wfFrags_append (b : List ToolCallDelta) :
    ∀ (a : List ToolCallDelta) (ok : List Nat),
      wfFrags ok (a ++ b) = true →
      wfFrags ok a = true ∧ wfFrags (a.foldl okStep ok) b = true := by
  intro a
  induction a with
  | nil => intro ok h; exact ⟨rfl, h⟩
  | cons tc rest ih =>
    intro ok h
    rw [List.cons_append, wfFrags, Bool.and_eq_true] at h
    obtain ⟨h1, h2⟩ := h
    obtain ⟨h3, h4⟩ := ih (okStep ok tc) h2
    refine ⟨?_, ?_⟩
    · rw [wfFrags, Bool.and_eq_true]
      exact ⟨h1, h3⟩
    · rw [List.foldl_cons]
      exact h4

theorem textEvents_chk (o : Option String) (p : List Nat × List Nat) :
    chk p (textEvents o) = true := by
  obtain ⟨st, cp⟩ := p
  cases o with
  | none => rfl
  | some t =>
    by_cases h : t = "" <;> simp [textEvents, h, chk, chkOk]

theorem textEvents_foldl (o : Option String) (p : List Nat × List Nat) :
    (textEvents o).foldl chkStep p = p := by
  obtain ⟨st, cp⟩ := p
  cases o with
  | none => rfl
  | some t =>
    by_cases h : t = "" <;> simp [textEvents, h, chkStep]

theorem chk_completeLoop (parse : String → Option Json)
    (seen : List (Nat × (Option String × Option String))) :
    ∀ (l : List (Nat × String)) (p : List Nat × List Nat),
      chk p (completeLoop parse l seen).1 = true := by
  intro l
  induction l with
  | nil => intro p; rfl
  | cons kv rest ih =>
    obtain ⟨k, b⟩ := kv
    intro p
    rw [completeLoop]
    cases hp : parse b with
    | none => rfl
    | some v =>
      obtain ⟨st, cp⟩ := p
      simp [chk, chkOk, chkStep, ih]

theorem chk_finishEvents (parse : String → Option Json)
    (iter : List (Nat × String) → List (Nat × String)) (s : TCState)
    (r : FinishReason) (p : List Nat × List Nat) :
    chk p (finishEvents parse iter s r).1 = true := by
  cases r with
  | toolCalls => exact chk_completeLoop parse s.toolSeen _ p
  | stop => rfl
  | length => rfl
  | contentFilter => rfl

theorem chk_processChoices (parse : String → Option Json)
    (iter : List (Nat × String) → List (Nat × String)) :
    ∀ (cs : List ChunkChoice) (s : TCState) (p : List Nat × List Nat)
      (ok : List Nat),
      p.2 = [] →
      (∀ i, (hasIdSeen s i || hasNameSeen s i) = true →
        p.1.contains i = true) →
      (∀ i, ok.contains i = true →
        (hasIdSeen s i || hasNameSeen s i) = true) →
      wfFrags ok (choicesFrags cs) = true →
      chk p (processChoices parse iter s cs).1 = true ∧
      (∀ s1, (processChoices parse iter s cs).2 = .cont s1 →
        (((processChoices parse iter s cs).1).foldl chkStep p).2 = [] ∧
        (∀ i, (hasIdSeen s1 i || hasNameSeen s1 i) = true →
          (((processChoices parse iter s cs).1).foldl chkStep p).1.contains
            i = true) ∧
        (∀ i, ((choicesFrags cs).foldl okStep ok).contains i = true →
          (hasIdSeen s1 i || hasNameSeen s1 i) = true)) := by
  intro cs
  induction cs with
  | nil =>
    intro s p ok hcp hst hok _
    simp only [processChoices]
    refine ⟨rfl, fun s1 h => ?_⟩
    injection h with h
    subst h
    simp only [choicesFrags, List.foldl_nil]
    exact ⟨hcp, hst, hok⟩
  | cons c cs ih =>
    intro s p ok hcp hst hok hwf
    by_cases hidx : c.index ≠ 0
    · have hcf : choiceFrags c = [] := by simp [choiceFrags, hidx]
      rw [show choicesFrags (c :: cs) = choiceFrags c ++ choicesFrags cs
        from rfl, hcf, List.nil_append] at hwf ⊢
      simp only [processChoices, if_pos hidx]
      exact ih s p ok hcp hst hok hwf
    · have hcf : choiceFrags c = c.delta.tool_calls.getD [] := by
        simp [choiceFrags, hidx]
      rw [show choicesFrags (c :: cs) = choiceFrags c ++ choicesFrags cs
        from rfl] at hwf ⊢
      obtain ⟨hwfA, hwfB⟩ := wfFrags_append _ _ _ hwf
      rw [hcf] at hwfA
      obtain ⟨F1, F2, F3, F4⟩ := chk_processFragments
        (c.delta.tool_calls.getD []) s p ok hcp hst hok hwfA
      have hTEnds : ∀ e ∈ textEvents c.delta.content ++
          (processFragments s (c.delta.tool_calls.getD [])).2,
          isEndB e = false := by
        intro e he
        rcases List.mem_append.1 he with h1 | h2
        · exact isEndB_of_stream e (textEvents_stream _ e h1)
        · exact isEndB_of_stream e (processFragments_stream _ _ e h2)
      have hTfold : (textEvents c.delta.content ++
          (processFragments s (c.delta.tool_calls.getD [])).2).foldl
            chkStep p =
          ((processFragments s (c.delta.tool_calls.getD [])).2).foldl
            chkStep p := by
        rw [List.foldl_append, textEvents_foldl]
      have hTchk : chk p (textEvents c.delta.content ++
          (processFragments s (c.delta.tool_calls.getD [])).2) = true := by
        rw [chk_append _ _ p
          (fun e he => isEndB_of_stream e (textEvents_stream _ e he)),
          Bool.and_eq_true, textEvents_foldl]
        exact ⟨textEvents_chk _ p, F1⟩
      cases hFin : c.finish_reason with
      | some r =>
        simp only [processChoices, if_neg hidx, hFin, toolEvents_eq]
        refine ⟨?_, fun s1 h => ?_⟩
        · rw [chk_append _ _ p hTEnds, Bool.and_eq_true, hTfold]
          exact ⟨hTchk, chk_finishEvents parse iter _ r _⟩
        · cases h
      | none =>
        simp only [processChoices, if_neg hidx, hFin, toolEvents_eq]
        obtain ⟨ihChk, ihCont⟩ := ih
          (processFragments s (c.delta.tool_calls.getD [])).1
          (((processFragments s (c.delta.tool_calls.getD [])).2).foldl
            chkStep p)
          ((c.delta.tool_calls.getD []).foldl okStep ok)
          F2 F3 F4 (by rw [← hcf]; exact hwfB)
        refine ⟨?_, fun s1 h => ?_⟩
        · rw [chk_append _ _ p hTEnds, Bool.and_eq_true, hTfold]
          exact ⟨hTchk, ihChk⟩
        · have h2 : (processChoices parse iter
              (processFragments s (c.delta.tool_calls.getD [])).1
              cs).2 = .cont s1 := h
          obtain ⟨G1, G2, G3⟩ := ihCont s1 h2
          refine ⟨?_, ?_, ?_⟩
          · rw [List.foldl_append, List.foldl_append, textEvents_foldl]
            exact G1
          · intro i hi
            rw [List.foldl_append, List.foldl_append, textEvents_foldl]
            exact G2 i hi
          · intro i hc
            apply G3 i
            rw [List.foldl_append, hcf] at hc
            exact hc

theorem chk_runChunks (parse : String → Option Json)
    (iter : List (Nat × String) → List (Nat × String)) :
    ∀ (items : List ChunkItem) (s : TCState) (p : List Nat × List Nat)
      (ok : List Nat),
      p.2 = [] →
      (∀ i, (hasIdSeen s i || hasNameSeen s i) = true →
        p.1.contains i = true) →
      (∀ i, ok.contains i = true →
        (hasIdSeen s i || hasNameSeen s i) = true) →
      wfFrags ok (flatFrags items) = true →
      chk p (runChunks parse iter s items).1 = true := by
  intro items
  induction items with
  | nil => intro s p ok _ _ _ _; rfl
  | cons it rest ih =>
    cases it with
    | fail => intro s p ok _ _ _ _; rfl
    | ok c =>
      intro s p ok hcp hst hok hwf
      rw [show flatFrags (ChunkItem.ok c :: rest) =
        choicesFrags c.choices ++ flatFrags rest from rfl] at hwf
      obtain ⟨hwfA, hwfB⟩ := wfFrags_append _ _ _ hwf
      obtain ⟨hchkC, hcont⟩ :=
        chk_processChoices parse iter c.choices s p ok hcp hst hok hwfA
      simp only [runChunks]
      cases hpc : (processChoices parse iter s c.choices).2 with
      | cont s1 =>
        simp only [hpc]
        obtain ⟨hS, _, _, _, _, _⟩ :=
          processChoices_cont parse iter c.choices s s1 hpc
        obtain ⟨G1, G2, G3⟩ := hcont s1 hpc
        rw [chk_append _ _ p
          (fun e he => isEndB_of_stream e (hS e he)), Bool.and_eq_true]
        exact ⟨hchkC, ih s1 _ _ G1 G2 G3 hwfB⟩
      | stop o =>
        simp only [hpc]
        exact hchkC

/-! ### C3: the ordering invariant -/

/-- C3 counterexample: when an argument fragment for an index arrives
before any id- or name-carrying fragment for that index, the
interpreter emits the `ToolCallArgumentsDelta` before the first
`ToolCallStart` for that index, violating the claimed ordering — the
ordering monitor `chk` rejects the emitted sequence. -/
theorem event_ordering_counterexample :
    (chat_complete_events_stream parseAny id itemsC3).1 =
      [StreamEvent.toolCallArgumentsDelta 0 "\x7b\x7d",
       StreamEvent.toolCallStart 0 (some "a") none] ∧
    chk ([], []) (chat_complete_events_stream parseAny id itemsC3).1 =
      false :=
  ⟨rfl, rfl⟩

/-- C3 (amended): for every input whose tool-call fragments are
well-formed — each index's argument fragments arrive no earlier than
its first id- or name-carrying fragment — the emitted event sequence
satisfies the ordering invariant checked by the monitor `chk`: every
`ToolCallArgumentsDelta` for an index is preceded by a `ToolCallStart`
for that index and not preceded by that index's `ToolCallComplete`
(so deltas fall between the first start and the complete), and
`MessageEnd`, when emitted, is the last event and unique — no event
follows it. -/
theorem event_ordering (parse : String → Option Json)
    (iter : List (Nat × String) → List (Nat × String))
    (items : List ChunkItem)
    (hwf : wfFrags [] (flatFrags items) = true) :
    chk ([], []) (chat_complete_events_stream parse iter items).1 =
      true := by
  apply chk_runChunks parse iter items initTCState ([], []) [] rfl
  · intro i h
    simp [hasIdSeen, hasNameSeen, seenHasId, seenHasName, initTCState,
      alookup] at h
  · intro i h
    simp at h
  · exact hwf

theorem event_ordering_witness :
    wfFrags [] (flatFrags itemsC9) = true ∧
    chk ([], []) (chat_complete_events_stream parseAny id itemsC9).1 =
      true :=
  ⟨by decide, event_ordering parseAny id itemsC9 (by decide)⟩
